import Mathlib

/-!
# rdmod: command-line R&D mode control

A shallow embedding of `rdmod.c` and theorems about it.

Conventions of the embedding.

* A C string is the list of its characters before the terminating NUL
  (`CStr`); `strlen` is `List.length`, `strcmp(a, b) == 0` is `a = b`.
* `malloc` and `realloc` are assumed to succeed, as the source assumes.
* The calls the program makes to its environment (stdio, mount, libcal) are
  recorded, in order, as a list of `Event`s; what the environment answers is
  read from a `World`.
* Behaviour the C standard leaves undefined is a `Fault`; the run stops there.
* Loops run on fuel; the fuel `main` supplies is a function of `argc`.
-/

namespace Rdmod

/-- C string: the characters before the terminating NUL. -/
abbrev CStr := List Char

/-! ## Constants (`rdmod.c` lines 40-85) -/

def RDMOD_GOOD : Int := 0
def RDMOD_NO_ARG : Int := -1
def RDMOD_DEVSHM_OPEN_E : Int := 1
def RDMOD_DEVSHM_READ_E : Int := 2
def RDMOD_DEVSHM_MOUNT_E : Int := 3
def RDMOD_DEVSHM_MKDIR_E : Int := 4
def RDMOD_DEVMTD_MKNOD_E : Int := 5
def RDMOD_DEV_OPEN_E : Int := 6
def RDMOD_DEV_READ_E : Int := 7
def RDMOD_DEV_MOUNT_E : Int := 8
def RDMOD_CAL_INIT_E : Int := 9
def RDMOD_CAL_READ_E : Int := 10
def RDMOD_CAL_WRITE_E : Int := 11

/-- The value of the stdio constant `EOF`. -/
def EOF : Int := -1

def mounts : CStr := "/proc/self/mounts".toList
def devshm : CStr := "/dev/shm".toList
def devmtd : CStr := "/dev/mtd1".toList
def dev : CStr := "/dev".toList
def devtmpfs : CStr := "/dev tmpfs".toList

def rd_mode_flags : List CStr :=
  [ "master".toList,
    "no-omap-wd".toList,
    "no-ext-wd".toList,
    "no-lifeguard-reset".toList,
    "serial-console".toList,
    "no-usb-timeout".toList,
    "sti-console".toList,
    "no-charging".toList,
    "force-power-key".toList ]

def help_text : List CStr :=
  [ "R&D Mode Control".toList,
    "  -q\t\tQuery current R&D Mode flags".toList,
    "  -e\t\tEnable R&D Mode".toList,
    "  -d\t\tDisable R&D Mode".toList,
    "  -s [flags]\tSet specified R&D Mode flags".toList,
    "  -c [flags]\tClear specified R&D Mode flags".toList,
    "  -h\t\tThis help text".toList,
    "  -l\t\tList the valid R&D Mode flags".toList,
    "  -p\t\tPrint the literal R&D Mode CAL area string".toList,
    "  -w [string]\tWrite string directly to the R&D Mode CAL area".toList ]

/-! ## Faults, events, the environment -/

/-- Undefined behaviour of the C program, and fuel exhaustion of the model. -/
inductive Fault
  /-- The call `strcpy(substring - 1, ...)` with `substring == rd_mode_string`: the
  destination lies one byte before the start of the buffer. -/
  | underflow
  /-- The call `strcpy(substring - 1, substring + strlen(flag))` with more characters
  after the occurrence than the flag has: the bytes read and the bytes written overlap,
  which `strcpy` leaves undefined. -/
  | overlap
  /-- A read of `str[u.i]` past the terminator of `str` in `streamHasStr`. -/
  | overrun
  /-- The model ran out of fuel (not a behaviour of the program). -/
  | fuel
  deriving DecidableEq, Repr

deriving instance DecidableEq for Except

/-- A call to the environment. -/
inductive Event
  | printf (text : CStr)
  | fopen (path : CStr)
  | fseek
  | fclose
  | mount (target : CStr)
  | mkdir (path : CStr)
  | mknod (path : CStr)
  | umount (target : CStr)
  | cal_init
  | cal_read_block
  | cal_write_block (data : CStr) (len : Nat)
  | cal_finish
  deriving DecidableEq, Repr

/-- What `cal_read_block(cal_s, "r&d_mode", &tmp_ptr, &len, CAL_FLAG_USER)`
answers. `cal.h` is not part of the repository, so its return codes are kept
abstract: `not_found` is `CAL_ERROR_NOT_FOUND` (`tmp_ptr` and `len` are left
`NULL` and `0`), `ok block` is `CAL_OK` with `tmp_ptr` pointing at the `len`
bytes of `block`, `error` is any other return value. -/
inductive CalRead
  | not_found
  | ok (block : List Char)
  | error
  deriving DecidableEq, Repr

/-- The answers of the environment during one run. -/
structure World where
  /-- Whether `fopen(mounts, "r")` returns a stream. -/
  fopen_ok : Bool
  /-- What the successive `fgetc` calls of the first scan deliver: `some c` is
  a character, `none` a failed read; after the last entry the stream is at
  end of file. -/
  mounts_first : List (Option Char)
  /-- The same for the scan after `fseek(mountsfile, 0, SEEK_SET)`. -/
  mounts_second : List (Option Char)
  /-- Return value of `mount("none", dev, "tmpfs", MS_NOATIME, "")`. -/
  mount_dev : Int
  /-- Return value of `mkdir(devshm, S_IRWXU)`. -/
  mkdir_devshm : Int
  /-- Return value of `mknod(devmtd, ...)`. -/
  mknod_devmtd : Int
  /-- Return value of `mount("none", devshm, "tmpfs", ...)`. -/
  mount_devshm : Int
  /-- Return value of `cal_init(&cal_s)`. -/
  cal_init : Int
  cal_read_block : CalRead
  /-- Return value of `cal_write_block(...)`. -/
  cal_write_block : Int

/-- A run of `main`: the calls made, in order, and the value returned (or the
fault that stopped the run). -/
structure Run where
  events : List Event
  ret : Except Fault Int
  deriving DecidableEq

/-- The run `r` preceded by the calls `pre`. -/
def Run.after (pre : List Event) (r : Run) : Run :=
  ⟨pre ++ r.events, r.ret⟩

/-! ## `string.h` -/

/-- The function `strstr(hay, needle)`: the offset of the first occurrence of `needle` in
`hay`, `none` for a null result. -/
def strstr : CStr → CStr → Option Nat
  | [], needle => if needle = [] then some 0 else none
  | c :: hay, needle =>
    if needle.isPrefixOf (c :: hay) then some 0
    else (strstr hay needle).map (· + 1)

/-! ## `streamHasStr` (lines 392-426) -/

/-- A stdio stream being read: what the coming `fgetc` calls deliver (`some c`
a character, `none` a failed read, the end of the list end-of-file), and the
stream's error indicator. -/
structure FILE where
  pending : List (Option Char)
  error : Bool
  deriving DecidableEq

mutual
/-- From the label `virtual_loop`: the do-while reading up to the first
character of `str`, then the `feof` and `ferror` tests. -/
def streamHasStr.virtual_loop (str : CStr) : List (Option Char) → Bool → Except Fault (Int × FILE)
  | [], error => .ok (0, ⟨[], error⟩)
  | none :: rest, _ => .ok (EOF, ⟨rest, true⟩)
  | some c :: rest, error =>
    if c ≠ str.headD '\x00' then streamHasStr.virtual_loop str rest error
    else if error then .ok (EOF, ⟨rest, error⟩)
    else streamHasStr.for_loop str rest error 1
/-- The `for` loop at index `i`, comparing the coming characters with `str[i]`,
`str[i+1]`, ...; a mismatch jumps back to `virtual_loop`. -/
def streamHasStr.for_loop (str : CStr) : List (Option Char) → Bool → Nat → Except Fault (Int × FILE)
  | pending, error, i =>
    if str.length < i then .error .overrun
    else if i = str.length then .ok (1, ⟨pending, error⟩)
    else
      match pending with
      -- `fgetc` is `EOF` at end of file; after the jump the next `fgetc` is
      -- `EOF` again, `feof` holds and 0 is returned
      | [] => .ok (0, ⟨[], error⟩)
      | none :: rest => streamHasStr.virtual_loop str rest true
      | some c :: rest =>
        if c ≠ str.getD i '\x00' then streamHasStr.virtual_loop str rest error
        else streamHasStr.for_loop str rest error (i + 1)
end

/-- The function `streamHasStr(stream, str)`: the value returned and the stream afterwards. -/
def streamHasStr (stream : FILE) (str : CStr) : Except Fault (Int × FILE) :=
  streamHasStr.virtual_loop str stream.pending stream.error

/-! ## The command loop (lines 223-338) -/

/-- The variables of the command loop: `index`, the live string and the text
of the `printf` calls made so far. -/
structure Loop where
  index : Nat
  rd_mode_string : CStr
  out : List CStr
  deriving DecidableEq

/-- Lines 280-290: what `-s` does with a matched `flag`. -/
def set_flag (flag : CStr) (st : Loop) : Except Fault Loop :=
  if strstr st.rd_mode_string flag = none then
    .ok { st with
      rd_mode_string := st.rd_mode_string ++ ",".toList ++ flag
      out := st.out ++ [flag ++ " is now set.\n".toList] }
  else
    .ok { st with out := st.out ++ [flag ++ " was already set.\n".toList] }

/-- Lines 308-317: what `-c` does with a matched `flag`.
`strcpy(substring - 1, substring + strlen(flag))` copies the tail of the string after
the occurrence, terminator included, to one byte before the occurrence. With the
occurrence at offset 0 the destination is outside the buffer. The source starts
`strlen(flag) + 1` bytes after the destination and the copy is `tail + 1` bytes long
(`tail` the number of characters after the occurrence), so source and destination
overlap exactly when `strlen(flag) < tail`; `strcpy` is undefined on overlapping
objects. -/
def clear_flag (flag : CStr) (st : Loop) : Except Fault Loop :=
  match strstr st.rd_mode_string flag with
  | some substring =>
    if substring = 0 then .error .underflow
    else if flag.length < st.rd_mode_string.length - (substring + flag.length) then
      .error .overlap
    else
      .ok { st with
        rd_mode_string :=
          st.rd_mode_string.take (substring - 1) ++ st.rd_mode_string.drop (substring + flag.length)
        out := st.out ++ [flag ++ " is now cleared.\n".toList] }
  | none =>
    .ok { st with out := st.out ++ [flag ++ " was already cleared.\n".toList] }

/-- The loop `for(i = 1; index < argc && i < 9; ++i)` of the `-s` and `-c`
branches (lines 276-294 and 304-321), from the test of its condition with the
given `i`; `body` is what is done with a matched flag. Returns the final `i`. -/
def flag_loop (body : CStr → Loop → Except Fault Loop) (argv : List CStr) :
    Nat → Nat → Loop → Except Fault (Nat × Loop)
  | 0, _, _ => .error .fuel
  | fuel + 1, i, st =>
    if st.index < argv.length ∧ i < 9 then
      if argv.getD st.index [] = rd_mode_flags.getD i [] then
        match body (rd_mode_flags.getD i []) st with
        | .error f => .error f
        | .ok st =>
          -- `i = 1; index += 1;` and then the `++i` of the loop
          flag_loop body argv fuel (1 + 1) { st with index := st.index + 1 }
      else flag_loop body argv fuel (i + 1) st
    else .ok (i, st)

/-- Lines 295-298 and 322-325: `if(i == 9) --index;`. -/
def after_flag_loop (r : Nat × Loop) : Loop :=
  if r.1 = 9 then { r.2 with index := r.2.index - 1 } else r.2

/-- The lines printed by `-h` (lines 228-231). -/
def help_lines : List CStr :=
  (List.range' 1 9).map fun i => help_text.getD i [] ++ "\n".toList

/-- The lines printed by `-l` (lines 235-239). -/
def list_lines : List CStr :=
  "Valid default R&D Mode flags:\n".toList ::
    (List.range' 1 8).map fun i => "  ".toList ++ rd_mode_flags.getD i [] ++ "\n".toList

/-- The lines printed by `-q` (lines 258-270). -/
def query_lines (rd_mode_string : CStr) : List CStr :=
  (List.range' 1 8).map fun i =>
    if (strstr rd_mode_string (rd_mode_flags.getD i [])).isSome then
      rd_mode_flags.getD i [] ++ " flag is on.\n".toList
    else
      rd_mode_flags.getD i [] ++ " flag is off.\n".toList

/-- One iteration of `while(index < argc)` (lines 226-337). -/
def iteration (argv : List CStr) (st : Loop) : Except Fault Loop :=
  let arg := argv.getD st.index []
  let st := if arg = "-h".toList then { st with out := st.out ++ help_lines } else st
  let r : Except Fault Loop :=
    if arg = "-l".toList then
      .ok { st with out := st.out ++ list_lines }
    else if arg = "-p".toList then
      .ok { st with out := st.out ++ [st.rd_mode_string ++ "\n".toList] }
    else if arg = "-e".toList then
      .ok { st with
        rd_mode_string := rd_mode_flags.getD 0 []
        out := st.out ++ ["R&D Mode enabled.\n".toList] }
    else if arg = "-d".toList then
      .ok { st with
        rd_mode_string := []
        out := st.out ++ ["R&D Mode disabled.\n".toList] }
    else if arg = "-q".toList then
      .ok { st with out := st.out ++ query_lines st.rd_mode_string }
    else if arg = "-s".toList then
      (flag_loop set_flag argv (9 * argv.length) 1 { st with index := st.index + 1 }).map
        after_flag_loop
    else if arg = "-c".toList then
      (flag_loop clear_flag argv (9 * argv.length) 1 { st with index := st.index + 1 }).map
        after_flag_loop
    else if arg = "-w".toList then
      let st := { st with index := st.index + 1 }
      if st.index < argv.length then
        .ok { st with
          rd_mode_string := argv.getD st.index []
          out := st.out ++ ["\"".toList ++ argv.getD st.index [] ++ "\" was written.\n".toList] }
      else .ok st
    else .ok st
  r.map fun st => { st with index := st.index + 1 }

/-- The loop `while(index < argc)`, from the test of its condition. -/
def command_loop (argv : List CStr) : Nat → Loop → Except Fault Loop
  | 0, _ => .error .fuel
  | fuel + 1, st =>
    if st.index < argv.length then
      match iteration argv st with
      | .error f => .error f
      | .ok st => command_loop argv fuel st
    else .ok st

/-! ## `main` (lines 87-390) -/

/-- From the label `cleanup_files` (lines 376-389). `mountsfile` tells whether
the pointer is non-null; `tempint` is the variable of `main`'s outermost scope,
the one `return tempint;` reads. -/
def cleanup_files (mountsfile neededshm neededdev : Bool) (tempint : Int) : Run :=
  ⟨(if mountsfile then [Event.fclose] else []) ++
    (if neededshm then [Event.umount devshm] else []) ++
    (if neededdev then [Event.umount dev] else []),
   .ok tempint⟩

/-- From the label `cleanup` (lines 351-375), falling through to
`cleanup_files`; `mountsfile` is `NULL` here (line 172). Both strings are
non-null and distinct, so both are freed and nothing is printed. -/
def cleanup (neededshm neededdev : Bool) (tempint : Int) : Run :=
  (cleanup_files false neededshm neededdev tempint).after [Event.cal_finish]

/-- Lines 340-349: the write-back of the live string, then `cleanup`. -/
def write_back (w : World) (rd_mode_string rd_mode_current : CStr)
    (neededshm neededdev : Bool) : Run :=
  if rd_mode_string ≠ rd_mode_current then
    if w.cal_write_block < 0 then
      (cleanup neededshm neededdev RDMOD_CAL_WRITE_E).after
        [Event.cal_write_block rd_mode_string rd_mode_string.length,
         Event.printf "Failed to write to the R&D Mode area of CAL.\n".toList]
    else
      (cleanup neededshm neededdev RDMOD_GOOD).after
        [Event.cal_write_block rd_mode_string rd_mode_string.length]
  else cleanup neededshm neededdev RDMOD_GOOD

/-- Lines 195-221: the string both `rd_mode_current` and `rd_mode_string` are
initialised with (the block up to its first NUL), and what is printed. -/
def load : CalRead → CStr × List Event
  | .ok block => (block.takeWhile (· ≠ '\x00'), [])
  | _ =>
    ([], [Event.printf
      "R&D Mode area seems empty; R&D Mode has likely never been set.\n".toList])

/-- Lines 171-390: from `fclose(mountsfile)` after the bootstrap to the end.
When the command loop faults, the calls recorded are those made before it. -/
def main_cal (w : World) (argv : List CStr) (neededshm neededdev : Bool) : Run :=
  Run.after [Event.fclose, Event.cal_init] <|
    if w.cal_init < 0 then
      ⟨[Event.printf "Failed to init CAL.\n".toList], .ok RDMOD_CAL_INIT_E⟩
    else
      Run.after [Event.cal_read_block] <|
        if w.cal_read_block = CalRead.error then
          ⟨[Event.cal_finish,
            Event.printf "Error trying to access R&D Mode area from CAL.\n".toList],
           .ok RDMOD_CAL_READ_E⟩
        else
          let rd_mode_current := (load w.cal_read_block).1
          Run.after (load w.cal_read_block).2 <|
            match command_loop argv argv.length ⟨1, rd_mode_current, []⟩ with
            | .error f => ⟨[], .error f⟩
            | .ok st =>
              (write_back w st.rd_mode_string rd_mode_current neededshm neededdev).after
                (st.out.map Event.printf)

/-- Lines 163-170: the mount of `/dev/shm`, then the rest of `main`.
`tempint` is the outer variable; the assignment of line 166 goes to the inner
`tempint` declared on line 132, which `cleanup_files` does not read. -/
def main_mount_devshm (w : World) (argv : List CStr) (neededdev : Bool) (tempint : Int) : Run :=
  Run.after [Event.mount devshm] <|
    if w.mount_devshm ≠ 0 then
      (cleanup_files true false neededdev tempint).after
        [Event.printf ("Error mounting ".toList ++ devshm ++
          ", unable to use semaphores.\n".toList)]
    else main_cal w argv true neededdev

/-- Lines 142-162: `/dev` is not a tmpfs; mount one, make `/dev/shm` and
`/dev/mtd1`. The assignments of lines 152 and 158 go to the inner `tempint`
(line 132); `tempint` here is the outer variable. -/
def main_mount_dev (w : World) (argv : List CStr) (tempint : Int) : Run :=
  Run.after [Event.mount dev] <|
    if w.mount_dev ≠ 0 then
      ⟨[Event.printf ("Error mounting tmpfs ".toList ++ dev ++
          " to make temporary ".toList ++ devshm ++ " on.\n".toList),
        Event.fclose],
       .ok RDMOD_DEV_MOUNT_E⟩
    else
      Run.after [Event.mkdir devshm] <|
        if w.mkdir_devshm ≠ 0 then
          (cleanup_files true false true tempint).after
            [Event.printf ("Error making directory ".toList ++ devshm ++
              ", unable to use semaphores.\n".toList)]
        else
          Run.after [Event.mknod devmtd] <|
            if w.mknod_devmtd ≠ 0 then
              (cleanup_files true false true tempint).after
                [Event.printf ("Error making ".toList ++ devmtd ++
                  " node, unable to open CAL partition.\n".toList)]
            else main_mount_devshm w argv true tempint

/-- Lines 125-170: `/dev/shm` is not in the mount table. `error` is the error
indicator the first scan left on the stream (`fseek` does not clear it);
`tempint` is the outer variable, which is 0 here. The test `if(!mountsfile)`
of line 127 cannot succeed. -/
def main_no_devshm (w : World) (argv : List CStr) (error : Bool) (tempint : Int) : Run :=
  Run.after [Event.fseek] <|
    match streamHasStr ⟨w.mounts_second, error⟩ devtmpfs with
    | .error f => ⟨[], .error f⟩
    | .ok (tempint_inner, _) =>
      if tempint_inner = EOF then
        ⟨[Event.printf ("Error reading ".toList ++ mounts ++
            ", cannot determine if ".toList ++ dev ++ " exists.\n".toList),
          Event.fclose],
         .ok RDMOD_DEV_READ_E⟩
      else if tempint_inner = 0 then main_mount_dev w argv tempint
      else main_mount_devshm w argv false tempint

/-- The lines printed when `argc == 1` (lines 95-103). -/
def usage_lines : List CStr :=
  ((List.range' 0 10).map fun i => help_text.getD i [] ++ "\n".toList) ++
    "Valid default R&D Mode flags:\n".toList ::
      (List.range' 1 8).map fun i => "  ".toList ++ rd_mode_flags.getD i [] ++ "\n".toList

/-- The function `main`; `argc` is the length of `argv`. -/
def main (w : World) (argv : List CStr) : Run :=
  if argv.length = 0 then ⟨[], .ok RDMOD_NO_ARG⟩
  else if argv.length = 1 then ⟨usage_lines.map Event.printf, .ok RDMOD_GOOD⟩
  else
    Run.after [Event.fopen mounts] <|
      if !w.fopen_ok then
        ⟨[Event.printf ("Error opening ".toList ++ mounts ++
            ", cannot determine if ".toList ++ devshm ++ " exists.\n".toList)],
         .ok RDMOD_DEVSHM_OPEN_E⟩
      else
        match streamHasStr ⟨w.mounts_first, false⟩ devshm with
        | .error f => ⟨[], .error f⟩
        | .ok (tempint, mountsfile) =>
          if tempint = EOF then
            ⟨[Event.printf ("Error reading ".toList ++ mounts ++
                ", cannot determine if ".toList ++ devshm ++ " exists.\n".toList),
              Event.fclose],
             .ok RDMOD_DEVSHM_READ_E⟩
          else if tempint = 0 then main_no_devshm w argv mountsfile.error tempint
          else main_cal w argv false false

/-! ## Observations on runs -/

/-- Calls to libcal. -/
def Event.is_cal : Event → Bool
  | .cal_init | .cal_read_block | .cal_write_block _ _ | .cal_finish => true
  | _ => false

/-- The `cal_write_block` calls among `events`: the data and the length passed. -/
def cal_writes (events : List Event) : List (CStr × Nat) :=
  events.filterMap fun
    | .cal_write_block data len => some (data, len)
    | _ => none

/-- A run of `main` either gets to line 171 (`main_cal`) after calls that do
not involve libcal, or makes no libcal call at all. -/
def Shape (w : World) (argv : List CStr) (r : Run) : Prop :=
  (∃ pre ns nd, r = (main_cal w argv ns nd).after pre ∧ ∀ e ∈ pre, e.is_cal = false) ∨
    ∀ e ∈ r.events, e.is_cal = false

/-- Calls that change the file systems: `mount`, `mkdir`, `mknod`, `umount`. -/
def Event.is_fs_call : Event → Bool
  | .mount _ | .mkdir _ | .mknod _ | .umount _ => true
  | _ => false

/-- The targets of the `mount` calls among `events`, in order. -/
def mounted (events : List Event) : List CStr :=
  events.filterMap fun
    | .mount target => some target
    | _ => none

/-- The targets of the `umount` calls among `events`, in order. -/
def umounted (events : List Event) : List CStr :=
  events.filterMap fun
    | .umount target => some target
    | _ => none

/-! ## Tokens of the live string -/

/-- The tokens of a string: its pieces between commas. -/
def tokens (cur : CStr) : List CStr := cur.splitOn ','

/-- The comma-join of a list of tokens. -/
def join (ts : List CStr) : CStr := [','].intercalate ts

/-! ## Sample environments -/

/-- A mount table that lists `/dev/shm`. -/
def table_with_devshm : List (Option Char) :=
  "rootfs / rootfs rw 0 0\ntmpfs /dev/shm tmpfs rw 0 0\n".toList.map some

/-- A mount table of early boot: neither `/dev/shm` nor a tmpfs on `/dev`. -/
def table_early : List (Option Char) :=
  "rootfs / rootfs rw 0 0\n".toList.map some

/-- A running device: `/dev/shm` is mounted, every call succeeds, and
`cal_read_block` answers `rd`. -/
def World.running (rd : CalRead) : World where
  fopen_ok := true
  mounts_first := table_with_devshm
  mounts_second := table_with_devshm
  mount_dev := 0
  mkdir_devshm := 0
  mknod_devmtd := 0
  mount_devshm := 0
  cal_init := 0
  cal_read_block := rd
  cal_write_block := 0

/-- A device in early boot: nothing is mounted under `/dev`, every call
succeeds, and `cal_read_block` answers `rd`. -/
def World.early (rd : CalRead) : World :=
  { World.running rd with mounts_first := table_early, mounts_second := table_early }

/-! ## Properties of the loop bodies -/

/-- What the lemmas on the `-s` and `-c` loops need of the action on a matched flag: it
neither reads nor changes `index`, it prints one line, and its only faults are the
underflow and the overlap of `strcpy`. -/
structure Body (body : CStr → Loop → Except Fault Loop) : Prop where
  index_free : ∀ f i s o,
    body f ⟨i, s, o⟩ = (body f ⟨0, s, o⟩).map fun st => { st with index := i }
  one_line : ∀ f st st', body f st = .ok st' → st'.out.length = st.out.length + 1
  faults : ∀ f st e, body f st = .error e → e = Fault.underflow ∨ e = Fault.overlap

/-- The options of the command line (lines 226-327). -/
def options : List CStr :=
  ["-h".toList, "-l".toList, "-p".toList, "-e".toList, "-d".toList, "-q".toList,
   "-s".toList, "-c".toList, "-w".toList]

/-- A list of tokens each of which is empty or a catalog name. -/
def catalog_only (ts : List CStr) : Prop :=
  ∀ t ∈ ts, t = [] ∨ t ∈ rd_mode_flags

/-- A live string is well formed when it is "" or "master" followed by groups of a comma
and a settable flag, the flags pairwise distinct. -/
def well_formed (s : CStr) : Prop :=
  ∃ (P : CStr) (fs : List CStr), (P = [] ∨ P = "master".toList) ∧
    (∀ f ∈ fs, f ∈ rd_mode_flags.tail) ∧ fs.Nodup ∧
    s = P ++ (fs.map fun f => ',' :: f).flatten

/-! ## Lemmas on runs -/

theorem after_after (r : Run) (a b : List Event) : (r.after a).after b = r.after (b ++ a) := by
  simp [Run.after]

theorem cal_writes_append (a b : List Event) :
    cal_writes (a ++ b) = cal_writes a ++ cal_writes b := by
  simp [cal_writes, List.filterMap_append]

theorem cal_writes_of_not_cal (a : List Event) (h : ∀ e ∈ a, e.is_cal = false) :
    cal_writes a = [] := by
  induction a with
  | nil => rfl
  | cons e a ih =>
    have he := h e (List.mem_cons_self _ _)
    have := ih (fun x hx => h x (List.mem_cons_of_mem _ hx))
    cases e <;> simp_all [cal_writes, Event.is_cal]

theorem Shape.after {w : World} {argv : List CStr} {r : Run} (h : Shape w argv r)
    (pre : List Event) (hpre : ∀ e ∈ pre, e.is_cal = false) : Shape w argv (r.after pre) := by
  rcases h with ⟨p, ns, nd, rfl, hp⟩ | h
  · left
    refine ⟨pre ++ p, ns, nd, after_after _ _ _, ?_⟩
    intro e he
    rcases List.mem_append.1 he with he | he
    · exact hpre e he
    · exact hp e he
  · right
    intro e he
    rcases List.mem_append.1 he with he | he
    · exact hpre e he
    · exact h e he

theorem Shape.main_cal (w : World) (argv : List CStr) (ns nd : Bool) :
    Shape w argv (main_cal w argv ns nd) :=
  Or.inl ⟨[], ns, nd, by simp [Run.after], by simp⟩

theorem Shape.cleanup_files (w : World) (argv : List CStr) (mf ns nd : Bool) (t : Int) :
    Shape w argv (cleanup_files mf ns nd t) := by
  right
  cases mf <;> cases ns <;> cases nd <;> simp [Rdmod.cleanup_files, Event.is_cal]

theorem Shape.main_mount_devshm (w : World) (argv : List CStr) (nd : Bool) (t : Int) :
    Shape w argv (main_mount_devshm w argv nd t) := by
  unfold Rdmod.main_mount_devshm
  refine Shape.after ?_ _ (by simp [Event.is_cal])
  split
  · exact Shape.after (Shape.cleanup_files ..) _ (by simp [Event.is_cal])
  · exact Shape.main_cal ..

theorem Shape.main_mount_dev (w : World) (argv : List CStr) (t : Int) :
    Shape w argv (main_mount_dev w argv t) := by
  unfold Rdmod.main_mount_dev
  refine Shape.after ?_ _ (by simp [Event.is_cal])
  split
  · right; simp [Event.is_cal]
  refine Shape.after ?_ _ (by simp [Event.is_cal])
  split
  · exact Shape.after (Shape.cleanup_files ..) _ (by simp [Event.is_cal])
  refine Shape.after ?_ _ (by simp [Event.is_cal])
  split
  · exact Shape.after (Shape.cleanup_files ..) _ (by simp [Event.is_cal])
  · exact Shape.main_mount_devshm ..

theorem Shape.main_no_devshm (w : World) (argv : List CStr) (err : Bool) (t : Int) :
    Shape w argv (main_no_devshm w argv err t) := by
  unfold Rdmod.main_no_devshm
  refine Shape.after ?_ _ (by simp [Event.is_cal])
  split
  · right; simp
  split
  · right; simp [Event.is_cal]
  split
  · exact Shape.main_mount_dev ..
  · exact Shape.main_mount_devshm ..

theorem Shape.main (w : World) (argv : List CStr) : Shape w argv (main w argv) := by
  unfold Rdmod.main
  split
  · right; simp
  split
  · right; simp [Event.is_cal]
  refine Shape.after ?_ _ (by simp [Event.is_cal])
  split
  · right; simp [Event.is_cal]
  split
  · right; simp
  split
  · right; simp [Event.is_cal]
  split
  · exact Shape.main_no_devshm ..
  · exact Shape.main_cal ..

/-- The libcal writes of `main_cal` when `cal_init` and `cal_read_block` succeed and the
command loop ends in `st`. -/
theorem cal_writes_main_cal (w : World) (argv : List CStr) (ns nd : Bool) (st : Loop)
    (hinit : 0 ≤ w.cal_init) (hread : w.cal_read_block ≠ CalRead.error)
    (hloop : command_loop argv argv.length ⟨1, (load w.cal_read_block).1, []⟩ = .ok st) :
    cal_writes (main_cal w argv ns nd).events =
      if st.rd_mode_string ≠ (load w.cal_read_block).1 then
        [(st.rd_mode_string, st.rd_mode_string.length)]
      else [] := by
  have hl : cal_writes (load w.cal_read_block).2 = [] := by
    cases w.cal_read_block <;> simp [load, cal_writes]
  have ho : cal_writes (st.out.map Event.printf) = [] :=
    cal_writes_of_not_cal _ (by simp [Event.is_cal])
  have hc : ∀ t, cal_writes (cleanup ns nd t).events = [] := by
    intro t
    cases ns <;> cases nd <;> simp [cleanup, cleanup_files, Run.after, cal_writes]
  unfold main_cal
  simp only [not_lt.2 hinit, hread, hloop, if_false, Run.after, cal_writes_append, hl, ho]
  have hw : ∀ (d : CStr) (n : Nat) (l : List Event),
      cal_writes (Event.cal_write_block d n :: l) = (d, n) :: cal_writes l := by
    intro d n l; rfl
  have hp : ∀ (t : CStr) (l : List Event), cal_writes (Event.printf t :: l) = cal_writes l := by
    intro t l; rfl
  have hn : cal_writes [] = [] := rfl
  have hf : cal_writes [Event.fclose, Event.cal_init] = [] := rfl
  have hr : cal_writes [Event.cal_read_block] = [] := rfl
  unfold write_back
  by_cases h : st.rd_mode_string = (load w.cal_read_block).1
  · simp only [h, ne_eq, not_true_eq_false, if_false, hc, hf, hr, List.append_nil]
  · by_cases h2 : w.cal_write_block < 0
    · simp only [h, h2, ne_eq, not_false_eq_true, if_true, Run.after, hw, hp, hc, hf, hr, hn,
        List.cons_append, List.nil_append, List.append_nil]
    · simp only [h, h2, ne_eq, not_false_eq_true, if_true, if_false, Run.after, hw, hp, hc, hf,
        hr, hn, List.cons_append, List.nil_append, List.append_nil]

/-! ## Lemmas on `strstr` and comma-joined strings -/

theorem join_tokens (cur : CStr) : join (tokens cur) = cur :=
  List.intercalate_splitOn cur ','

theorem join_nil : join [] = [] := rfl

theorem join_singleton (t : CStr) : join [t] = t := by
  simp [join, List.intercalate, List.intersperse]

theorem join_cons_cons (t t' : CStr) (r : List CStr) :
    join (t :: t' :: r) = t ++ ',' :: join (t' :: r) := by
  simp [join, List.intercalate, List.intersperse]

theorem join_append (pre post : List CStr) (hpre : pre ≠ []) (hpost : post ≠ []) :
    join (pre ++ post) = join pre ++ ',' :: join post := by
  induction pre with
  | nil => exact absurd rfl hpre
  | cons t pre ih =>
    cases pre with
    | nil =>
      cases post with
      | nil => exact absurd rfl hpost
      | cons p post => simp [join_cons_cons, join_singleton]
    | cons t' pre =>
      have := ih (by simp)
      simp only [List.cons_append] at this ⊢
      rw [join_cons_cons, this, join_cons_cons]
      simp

theorem strstr_isSome_iff (hay f : CStr) : (strstr hay f).isSome ↔ f <:+: hay := by
  induction hay with
  | nil =>
    by_cases h : f = [] <;> simp [strstr, h]
  | cons c hay ih =>
    rw [List.infix_cons_iff, ← ih]
    by_cases h : f.isPrefixOf (c :: hay) = true
    · simp [strstr, h, List.isPrefixOf_iff_prefix.1 h]
    · have h' : ¬ f <+: c :: hay := fun hp => h (List.isPrefixOf_iff_prefix.2 hp)
      simp [strstr, h, h']

theorem strstr_eq_none_iff (hay f : CStr) : strstr hay f = none ↔ ¬ f <:+: hay := by
  rw [← strstr_isSome_iff]
  cases strstr hay f <;> simp

theorem strstr_self_append (f rest : CStr) : strstr (f ++ rest) f = some 0 := by
  cases h : f ++ rest with
  | nil =>
    have : f = [] := by
      cases f with
      | nil => rfl
      | cons a f => simp at h
    simp [strstr, this]
  | cons c l =>
    have hp : f.isPrefixOf (c :: l) = true := by
      rw [List.isPrefixOf_iff_prefix, ← h]
      exact List.prefix_append _ _
    simp [strstr, hp]

theorem strstr_append_skip (f A B : CStr)
    (h : ∀ j < A.length, ¬ f <+: (A ++ B).drop j) :
    strstr (A ++ B) f = (strstr B f).map (· + A.length) := by
  induction A with
  | nil => simp
  | cons a A ih =>
    have h0 : ¬ f <+: a :: (A ++ B) := by
      have := h 0 (by simp)
      simpa using this
    have hi : f.isPrefixOf (a :: (A ++ B)) = false := by
      cases hc : f.isPrefixOf (a :: (A ++ B)) with
      | false => rfl
      | true => exact absurd (List.isPrefixOf_iff_prefix.1 hc) h0
    have hrec := ih (fun j hj => by
      have := h (j + 1) (by simp; omega)
      simpa using this)
    have hstep : strstr (a :: (A ++ B)) f = (strstr (A ++ B) f).map (· + 1) := by
      rw [strstr, hi]; rfl
    rw [List.cons_append, hstep, hrec]
    cases strstr B f with
    | none => rfl
    | some k => simp [Nat.add_assoc]

theorem prefix_of_prefix_append_cons {f X Y : CStr} {c : Char} (hc : c ∉ f)
    (h : f <+: X ++ c :: Y) : f <+: X := by
  by_cases hl : f.length ≤ X.length
  · exact List.prefix_of_prefix_length_le h (List.prefix_append _ _) hl
  · have hx : X ++ [c] <+: X ++ c :: Y := by
      have : X ++ c :: Y = (X ++ [c]) ++ Y := by simp
      rw [this]; exact List.prefix_append _ _
    have : X ++ [c] <+: f :=
      List.prefix_of_prefix_length_le hx h (by simp; omega)
    exact absurd (this.subset (by simp)) hc

theorem infix_of_infix_append_cons {f X Y : CStr} {c : Char} (hc : c ∉ f)
    (h : f <:+: X ++ c :: Y) : f <:+: X ∨ f <:+: Y := by
  induction X with
  | nil =>
    rw [List.nil_append, List.infix_cons_iff] at h
    rcases h with h | h
    · left
      exact (prefix_of_prefix_append_cons (X := []) hc (by simpa using h)).isInfix
    · right; exact h
  | cons x X ih =>
    rw [List.cons_append, List.infix_cons_iff] at h
    rcases h with h | h
    · left
      exact (prefix_of_prefix_append_cons (X := x :: X) hc (by simpa using h)).isInfix
    · rcases ih h with h | h
      · left; exact List.infix_cons_iff.2 (Or.inr h)
      · right; exact h

theorem infix_join {f : CStr} (hne : f ≠ []) (hc : ',' ∉ f) :
    ∀ ts : List CStr, f <:+: join ts → ∃ t ∈ ts, f <:+: t
  | [], h => absurd (List.infix_nil.1 (by simpa [join_nil] using h)) hne
  | [t], h => ⟨t, by simp, by simpa [join_singleton] using h⟩
  | t :: t' :: r, h => by
    rw [join_cons_cons] at h
    rcases infix_of_infix_append_cons hc h with h | h
    · exact ⟨t, by simp, h⟩
    · obtain ⟨u, hu, hfu⟩ := infix_join hne hc (t' :: r) h
      exact ⟨u, List.mem_cons_of_mem _ hu, hfu⟩

theorem infix_join_of_mem {t : CStr} : ∀ ts : List CStr, t ∈ ts → t <:+: join ts
  | [], h => by simp at h
  | [u], h => by
    have : t = u := by simpa using h
    rw [join_singleton, this]
  | u :: u' :: r, h => by
    rw [join_cons_cons]
    rcases List.mem_cons.1 h with rfl | h
    · exact (List.prefix_append _ _).isInfix
    · have := infix_join_of_mem (u' :: r) h
      obtain ⟨p, s, hps⟩ := this
      exact ⟨u ++ ',' :: p, s, by simp [← hps]⟩

/-! ## Lemmas on `main` -/

theorem forall_mem_after {p : Event → Prop} {r : Run} {pre : List Event}
    (hpre : ∀ e ∈ pre, p e) (hr : ∀ e ∈ r.events, p e) : ∀ e ∈ (r.after pre).events, p e := by
  intro e he
  rcases List.mem_append.1 he with he | he
  · exact hpre e he
  · exact hr e he

theorem main_cal_no_fs_call (w : World) (argv : List CStr) :
    ∀ e ∈ (main_cal w argv false false).events, e.is_fs_call = false := by
  have hload : ∀ e ∈ (load w.cal_read_block).2, e.is_fs_call = false := by
    cases w.cal_read_block <;> simp [load, Event.is_fs_call]
  have hwb : ∀ (a b : CStr), ∀ e ∈ (write_back w a b false false).events,
      e.is_fs_call = false := by
    intro a b
    unfold write_back cleanup cleanup_files
    split
    · split <;> simp [Run.after, Event.is_fs_call]
    · simp [Run.after, Event.is_fs_call]
  unfold main_cal
  refine forall_mem_after (by simp [Event.is_fs_call]) ?_
  split
  · simp [Event.is_fs_call]
  refine forall_mem_after (by simp [Event.is_fs_call]) ?_
  split
  · simp [Event.is_fs_call]
  refine forall_mem_after hload ?_
  split
  · simp
  · exact forall_mem_after (by simp [Event.is_fs_call]) (hwb _ _)

/-! ## Lemmas on the catalog -/

theorem catalog_ne_nil : ∀ f ∈ rd_mode_flags, f ≠ [] ∧ ',' ∉ f := by decide

theorem catalog_no_substring : ∀ f ∈ rd_mode_flags, ∀ t ∈ rd_mode_flags, f <:+: t → f = t := by
  decide

theorem strstr_catalog (cur f : CStr)
    (hcur : ∀ t ∈ tokens cur, t = [] ∨ t ∈ rd_mode_flags) (hf : f ∈ rd_mode_flags) :
    (strstr cur f).isSome ↔ f ∈ tokens cur := by
  obtain ⟨hne, hc⟩ := catalog_ne_nil f hf
  rw [strstr_isSome_iff]
  constructor
  · intro h
    rw [← join_tokens cur] at h
    obtain ⟨t, ht, hft⟩ := infix_join hne hc _ h
    rcases hcur t ht with rfl | hcat
    · exact absurd (List.infix_nil.1 hft) hne
    · rw [catalog_no_substring f hf t hcat hft]; exact ht
  · intro h
    have := infix_join_of_mem _ h
    rwa [join_tokens] at this

/-! ## Lemmas on the command loop -/

theorem flag_loop_end (body : CStr → Loop → Except Fault Loop) (argv : List CStr)
    (fuel i : Nat) (st : Loop) (h : ¬ st.index < argv.length) :
    flag_loop body argv (fuel + 1) i st = .ok (i, st) := by
  simp [flag_loop, h]

theorem flag_loop_scan (body : CStr → Loop → Except Fault Loop) (argv : List CStr)
    (st : Loop) (hidx : st.index < argv.length) (j : Nat) (hj : j < 9)
    (hmatch : argv.getD st.index [] = rd_mode_flags.getD j []) :
    ∀ (d i fuel : Nat), i + d = j →
      (∀ k, i ≤ k → k < j → argv.getD st.index [] ≠ rd_mode_flags.getD k []) →
      flag_loop body argv (fuel + d + 1) i st =
        match body (rd_mode_flags.getD j []) st with
        | .error e => .error e
        | .ok st' => flag_loop body argv fuel 2 { st' with index := st'.index + 1 }
  | 0, i, fuel, hij, _ => by
    have hi : i = j := by omega
    subst hi
    have hc : st.index < argv.length ∧ i < 9 := ⟨hidx, hj⟩
    rw [Nat.add_zero, flag_loop, if_pos hc, if_pos hmatch]
  | d + 1, i, fuel, hij, hno => by
    have hc : st.index < argv.length ∧ i < 9 := ⟨hidx, by omega⟩
    have hne := hno i (Nat.le_refl _) (by omega)
    rw [show fuel + (d + 1) + 1 = (fuel + d + 1) + 1 by omega, flag_loop, if_pos hc, if_neg hne]
    exact flag_loop_scan body argv st hidx j hj hmatch d (i + 1) fuel (by omega)
      (fun k hk hkj => hno k (by omega) hkj)

theorem flag_loop_none (body : CStr → Loop → Except Fault Loop) (argv : List CStr)
    (st : Loop) (hidx : st.index < argv.length) :
    ∀ (d i fuel : Nat), i + d = 9 →
      (∀ k, i ≤ k → k < 9 → argv.getD st.index [] ≠ rd_mode_flags.getD k []) →
      flag_loop body argv (fuel + d + 1) i st = .ok (9, st)
  | 0, i, fuel, hi, _ => by
    have hc : ¬ (st.index < argv.length ∧ i < 9) := by omega
    rw [Nat.add_zero, flag_loop, if_neg hc, show i = 9 by omega]
  | d + 1, i, fuel, hi, hno => by
    have hc : st.index < argv.length ∧ i < 9 := ⟨hidx, by omega⟩
    have hne := hno i (Nat.le_refl _) (by omega)
    rw [show fuel + (d + 1) + 1 = (fuel + d + 1) + 1 by omega, flag_loop, if_pos hc, if_neg hne]
    exact flag_loop_none body argv st hidx d (i + 1) fuel (by omega)
      (fun k hk hk9 => hno k (by omega) hk9)

theorem iteration_s (argv : List CStr) (st : Loop)
    (h : argv.getD st.index [] = "-s".toList) :
    iteration argv st =
      ((flag_loop set_flag argv (9 * argv.length) 1 { st with index := st.index + 1 }).map
        after_flag_loop).map fun st => { st with index := st.index + 1 } := by
  unfold iteration
  simp only [h]
  rfl

theorem iteration_c (argv : List CStr) (st : Loop)
    (h : argv.getD st.index [] = "-c".toList) :
    iteration argv st =
      ((flag_loop clear_flag argv (9 * argv.length) 1 { st with index := st.index + 1 }).map
        after_flag_loop).map fun st => { st with index := st.index + 1 } := by
  unfold iteration
  simp only [h]
  rfl

theorem iteration_q (argv : List CStr) (st : Loop)
    (h : argv.getD st.index [] = "-q".toList) :
    iteration argv st =
      .ok { st with out := st.out ++ query_lines st.rd_mode_string, index := st.index + 1 } := by
  unfold iteration
  simp only [h]
  rfl

/-- The index of a settable flag in the catalog. -/
theorem flag_index (f : CStr) (hf : f ∈ rd_mode_flags.tail) :
    ∃ j, 1 ≤ j ∧ j < 9 ∧ f = rd_mode_flags.getD j [] ∧
      ∀ k, 1 ≤ k → k < j → f ≠ rd_mode_flags.getD k [] := by
  have hall : ∀ j, j < 9 → ∀ k, k < j → rd_mode_flags.getD j [] ≠ rd_mode_flags.getD k [] := by
    decide
  simp only [rd_mode_flags, List.tail_cons, List.mem_cons, List.mem_singleton,
    List.not_mem_nil, or_false] at hf
  rcases hf with h | h | h | h | h | h | h | h
  · exact ⟨1, by omega, by omega, h, fun k _ hk => h ▸ hall 1 (by omega) k hk⟩
  · exact ⟨2, by omega, by omega, h, fun k _ hk => h ▸ hall 2 (by omega) k hk⟩
  · exact ⟨3, by omega, by omega, h, fun k _ hk => h ▸ hall 3 (by omega) k hk⟩
  · exact ⟨4, by omega, by omega, h, fun k _ hk => h ▸ hall 4 (by omega) k hk⟩
  · exact ⟨5, by omega, by omega, h, fun k _ hk => h ▸ hall 5 (by omega) k hk⟩
  · exact ⟨6, by omega, by omega, h, fun k _ hk => h ▸ hall 6 (by omega) k hk⟩
  · exact ⟨7, by omega, by omega, h, fun k _ hk => h ▸ hall 7 (by omega) k hk⟩
  · exact ⟨8, by omega, by omega, h, fun k _ hk => h ▸ hall 8 (by omega) k hk⟩

/-- The loop of `-s` or `-c` over a single flag `f`, the last argument. -/
theorem flag_loop_single (body : CStr → Loop → Except Fault Loop) (prog opt f : CStr)
    (hf : f ∈ rd_mode_flags.tail) (cur : CStr) (out : List CStr)
    (hbody : ∀ st st', body f st = .ok st' → st'.index = st.index) :
    flag_loop body [prog, opt, f] (9 * [prog, opt, f].length) 1 ⟨2, cur, out⟩ =
      (body f ⟨2, cur, out⟩).map fun st' => (2, { st' with index := 3 }) := by
  obtain ⟨j, hj1, hj9, hfj, hfirst⟩ := flag_index f hf
  have hscan := flag_loop_scan body [prog, opt, f] ⟨2, cur, out⟩ (by simp) j hj9
    (by simpa using hfj) (j - 1) 1 (27 - j) (by omega)
    (fun k hk hkj => by simpa using hfirst k hk hkj)
  rw [show 9 * [prog, opt, f].length = 27 - j + (j - 1) + 1 by simp; omega, hscan, ← hfj]
  cases hb : body f ⟨2, cur, out⟩ with
  | error e => rfl
  | ok st' =>
    have hi := hbody _ _ hb
    simp only [Except.map]
    rw [show 27 - j = (26 - j) + 1 by omega, flag_loop_end _ _ _ _ _ (by simp [hi])]
    simp [hi]

theorem set_flag_index (f : CStr) (st st' : Loop) (h : set_flag f st = .ok st') :
    st'.index = st.index := by
  unfold set_flag at h
  split at h <;> (injection h with h; subst h; rfl)

theorem clear_flag_index (f : CStr) (st st' : Loop) (h : clear_flag f st = .ok st') :
    st'.index = st.index := by
  unfold clear_flag at h
  split at h
  · split at h
    · cases h
    · split at h
      · cases h
      · injection h with h; subst h; rfl
  · injection h with h; subst h; rfl

/-- The command loop on the arguments `-s f`, for a settable flag `f`. -/
theorem command_loop_s_single (prog f : CStr) (hf : f ∈ rd_mode_flags.tail) (cur : CStr)
    (out : List CStr) :
    command_loop [prog, "-s".toList, f] [prog, "-s".toList, f].length ⟨1, cur, out⟩ =
      (set_flag f ⟨2, cur, out⟩).map fun st => { st with index := 4 } := by
  have hlen : [prog, "-s".toList, f].length = 2 + 1 := rfl
  have h1 : (⟨1, cur, out⟩ : Loop).index < [prog, "-s".toList, f].length := by simp
  rw [hlen, command_loop, if_pos h1, iteration_s [prog, "-s".toList, f] ⟨1, cur, out⟩ rfl]
  have := flag_loop_single set_flag prog "-s".toList f hf cur out (set_flag_index f)
  simp only at this
  rw [this]
  cases hb : set_flag f ⟨2, cur, out⟩ with
  | error e => rfl
  | ok st' =>
    simp only [Except.map, after_flag_loop]
    rw [command_loop, if_neg (by simp)]
    simp

/-- What `set_flag` does on a live string whose tokens are empty or catalog names. -/
theorem set_flag_catalog (cur f : CStr) (i : Nat) (out : List CStr)
    (hcur : ∀ t ∈ tokens cur, t = [] ∨ t ∈ rd_mode_flags) (hf : f ∈ rd_mode_flags.tail) :
    set_flag f ⟨i, cur, out⟩ =
      .ok (if f ∈ tokens cur then ⟨i, cur, out ++ [f ++ " was already set.\n".toList]⟩
        else ⟨i, cur ++ ",".toList ++ f, out ++ [f ++ " is now set.\n".toList]⟩) := by
  have hiff := strstr_catalog cur f hcur (List.mem_of_mem_tail hf)
  unfold set_flag
  by_cases hmem : f ∈ tokens cur
  · have hsome : strstr cur f ≠ none := by
      intro hn
      have := hiff.2 hmem
      simp [hn] at this
    simp [hsome, hmem]
  · have hnone : strstr cur f = none := by
      cases hs : strstr cur f with
      | none => rfl
      | some k => exact absurd (hiff.1 (by simp [hs])) hmem
    simp [hnone, hmem]

/-! ## Lemmas on clearing a token -/

/-- The part of `join (f :: post)` after `f`. -/
theorem join_cons_eq (f : CStr) (post : List CStr) :
    ∃ tail, join (f :: post) = f ++ tail ∧ ∀ pre : List CStr, pre ≠ [] →
      join (pre ++ post) = join pre ++ tail := by
  cases post with
  | nil => exact ⟨[], by simp [join_singleton], fun pre _ => by simp⟩
  | cons p post =>
    exact ⟨',' :: join (p :: post), join_cons_cons _ _ _,
      fun pre hpre => join_append pre (p :: post) hpre (by simp)⟩

/-- In a comma-joined string, the first occurrence of a token `f` that no earlier token
contains starts right after the comma that follows the earlier tokens. -/
theorem strstr_join (f : CStr) (hne : f ≠ []) (hc : ',' ∉ f) (pre post : List CStr)
    (hpre : pre ≠ []) (hno : ∀ t ∈ pre, ¬ f <:+: t) :
    strstr (join (pre ++ f :: post)) f = some ((join pre).length + 1) := by
  obtain ⟨tail, htail, _⟩ := join_cons_eq f post
  have hsplit : join (pre ++ f :: post) = (join pre ++ [',']) ++ (f ++ tail) := by
    rw [join_append pre (f :: post) hpre (by simp), htail]; simp
  rw [hsplit, strstr_append_skip, strstr_self_append]
  · simp
  · intro j hj hp
    have hj' : j ≤ (join pre).length := by
      simp at hj; omega
    have hd : List.drop j (join pre ++ [','] ++ (f ++ tail)) =
        List.drop j (join pre) ++ ',' :: (f ++ tail) := by
      rw [List.append_assoc, List.drop_append_of_le_length hj']; simp
    rw [hd] at hp
    have h1 : f <+: List.drop j (join pre) := prefix_of_prefix_append_cons hc hp
    have h2 : f <:+: join pre :=
      List.infix_iff_prefix_suffix.2 ⟨_, h1, List.drop_suffix _ _⟩
    obtain ⟨t, ht, hft⟩ := infix_join hne hc pre h2
    exact hno t ht hft

/-- Clearing a token that is not the first one and that no earlier token contains: when
what follows the token in the string is longer than the token, the `strcpy` overlaps;
otherwise the token is removed together with the comma before it. -/
theorem clear_flag_join (f : CStr) (hne : f ≠ []) (hc : ',' ∉ f) (pre post : List CStr)
    (hpre : pre ≠ []) (hno : ∀ t ∈ pre, ¬ f <:+: t) (i : Nat) (out : List CStr) :
    clear_flag f ⟨i, join (pre ++ f :: post), out⟩ =
      if 2 * f.length < (join (f :: post)).length then .error Fault.overlap
      else .ok ⟨i, join (pre ++ post), out ++ [f ++ " is now cleared.\n".toList]⟩ := by
  obtain ⟨tail, htail, hjoin⟩ := join_cons_eq f post
  have hsplit : join (pre ++ f :: post) = join pre ++ (',' :: f ++ tail) := by
    rw [join_append pre (f :: post) hpre (by simp), htail]; simp
  have hlen : (join pre ++ (',' :: f ++ tail)).length - ((join pre).length + 1 + f.length) =
      tail.length := by
    simp; omega
  have hcond : (f.length < tail.length) ↔ (2 * f.length < (f ++ tail).length) := by
    simp; omega
  unfold clear_flag
  simp only [strstr_join f hne hc pre post hpre hno]
  rw [if_neg (by omega), hjoin pre hpre, hsplit, hlen, htail]
  simp only [hcond]
  have ht : List.take ((join pre).length + 1 - 1) (join pre ++ (',' :: f ++ tail)) = join pre := by
    rw [Nat.add_sub_cancel]; exact List.take_left _ _
  have hd : List.drop ((join pre).length + 1 + f.length) (join pre ++ (',' :: f ++ tail)) =
      tail := by
    rw [Nat.add_assoc, List.drop_append]
    have : ',' :: f ++ tail = (',' :: f) ++ tail := rfl
    rw [this]
    exact List.drop_left' (by simp; omega)
  rw [ht, hd]

/-- What `clear_flag` does on a comma-joined string in which the settable flag `f` comes
after the catalog names `pre`, none of them `f`, and before the tokens `post`. -/
theorem clear_flag_catalog (f : CStr) (pre post : List CStr) (i : Nat) (out : List CStr)
    (hpre : pre ≠ []) (hts : ∀ t ∈ pre, t ∈ rd_mode_flags) (hf : f ∈ rd_mode_flags.tail)
    (hmem : f ∉ pre) :
    clear_flag f ⟨i, join (pre ++ f :: post), out⟩ =
      if 2 * f.length < (join (f :: post)).length then .error Fault.overlap
      else .ok ⟨i, join (pre ++ post), out ++ [f ++ " is now cleared.\n".toList]⟩ := by
  have hcat : f ∈ rd_mode_flags := List.mem_of_mem_tail hf
  obtain ⟨hne, hc⟩ := catalog_ne_nil f hcat
  exact clear_flag_join f hne hc pre post hpre
    (fun t ht hft => hmem (catalog_no_substring f hcat t (hts t ht) hft ▸ ht)) i out

/-- The command loop on the arguments `-c f`, for a settable flag `f`. -/
theorem command_loop_c_single (prog f : CStr) (hf : f ∈ rd_mode_flags.tail) (cur : CStr)
    (out : List CStr) :
    command_loop [prog, "-c".toList, f] [prog, "-c".toList, f].length ⟨1, cur, out⟩ =
      (clear_flag f ⟨2, cur, out⟩).map fun st => { st with index := 4 } := by
  have hlen : [prog, "-c".toList, f].length = 2 + 1 := rfl
  have h1 : (⟨1, cur, out⟩ : Loop).index < [prog, "-c".toList, f].length := by simp
  rw [hlen, command_loop, if_pos h1, iteration_c [prog, "-c".toList, f] ⟨1, cur, out⟩ rfl]
  have := flag_loop_single clear_flag prog "-c".toList f hf cur out (clear_flag_index f)
  simp only at this
  rw [this]
  cases hb : clear_flag f ⟨2, cur, out⟩ with
  | error e => rfl
  | ok st' =>
    simp only [Except.map, after_flag_loop]
    rw [command_loop, if_neg (by simp)]
    simp

/-- The lines of `-q`, flag by flag. -/
theorem query_lines_eq (cur : CStr) :
    query_lines cur = rd_mode_flags.tail.map fun f =>
      if (strstr cur f).isSome then f ++ " flag is on.\n".toList
      else f ++ " flag is off.\n".toList := rfl

/-! ## Lemmas on `streamHasStr` -/

theorem map_some_drop (str : CStr) (i : Nat) (h : i < str.length) :
    (str.drop i).map some = some (str.getD i '\x00') :: (str.drop (i + 1)).map some := by
  rw [List.drop_eq_getElem_cons h, List.map_cons, List.getD_eq_getElem _ _ h]

/-- A scan that returns 1 has just read the characters of `str`, and no read has failed. -/
theorem scan_one (str : CStr) (hne : str ≠ []) :
    ∀ pending : List (Option Char),
      (∀ error file, streamHasStr.virtual_loop str pending error = .ok (1, file) →
        file.error = false ∧ ∃ pre, pending = pre ++ str.map some ++ file.pending) ∧
      (∀ error i file, i ≤ str.length →
        streamHasStr.for_loop str pending error i = .ok (1, file) →
        (file.error = error ∧ pending = (str.drop i).map some ++ file.pending) ∨
          (file.error = false ∧ ∃ pre, pending = pre ++ str.map some ++ file.pending))
  | [] => by
    constructor
    · intro error file h
      simp [streamHasStr.virtual_loop] at h
    · intro error i file hi h
      rw [streamHasStr.for_loop] at h
      simp only [Nat.not_lt.2 hi, if_false] at h
      split at h
      · rename_i hil
        simp only [Except.ok.injEq, Prod.mk.injEq, true_and] at h
        subst h
        left
        simp [hil]
      · simp at h
  | none :: rest => by
    have ih := scan_one str hne rest
    constructor
    · intro error file h
      simp [streamHasStr.virtual_loop, EOF] at h
    · intro error i file hi h
      rw [streamHasStr.for_loop] at h
      simp only [Nat.not_lt.2 hi, if_false] at h
      split at h
      · rename_i hil
        simp only [Except.ok.injEq, Prod.mk.injEq, true_and] at h
        subst h
        left
        simp [hil]
      · obtain ⟨he, pre, hpre⟩ := ih.1 _ _ h
        right
        exact ⟨he, none :: pre, by simp [hpre]⟩
  | some c :: rest => by
    have ih := scan_one str hne rest
    have hhead : str.map some = some (str.headD '\x00') :: (str.drop 1).map some := by
      cases str with
      | nil => exact absurd rfl hne
      | cons a str => simp
    constructor
    · intro error file h
      rw [streamHasStr.virtual_loop] at h
      split at h
      · obtain ⟨he, pre, hpre⟩ := ih.1 _ _ h
        exact ⟨he, some c :: pre, by simp [hpre]⟩
      · rename_i hc
        have hc' : c = str.headD '\x00' := by simpa using hc
        split at h
        · simp [EOF] at h
        · rename_i herr
          have hlen : 1 ≤ str.length := by
            cases str with
            | nil => exact absurd rfl hne
            | cons a str => simp
          rcases ih.2 _ _ _ hlen h with ⟨he, hp⟩ | ⟨he, pre, hpre⟩
          · refine ⟨by simpa [he] using herr, [], ?_⟩
            rw [List.nil_append, hhead, hp, hc']
            simp
          · exact ⟨he, some c :: pre, by simp [hpre]⟩
    · intro error i file hi h
      rw [streamHasStr.for_loop] at h
      simp only [Nat.not_lt.2 hi, if_false] at h
      split at h
      · rename_i hil
        simp only [Except.ok.injEq, Prod.mk.injEq, true_and] at h
        subst h
        left
        simp [hil]
      · rename_i hil
        have hlt : i < str.length := by omega
        split at h
        · obtain ⟨he, pre, hpre⟩ := ih.1 _ _ h
          right
          exact ⟨he, some c :: pre, by simp [hpre]⟩
        · rename_i hc
          have hc' : c = str.getD i '\x00' := by simpa using hc
          rcases ih.2 _ _ _ (by omega) h with ⟨he, hp⟩ | ⟨he, pre, hpre⟩
          · left
            refine ⟨he, ?_⟩
            rw [map_some_drop str i hlt, hp, hc']
            simp
          · right
            exact ⟨he, some c :: pre, by simp [hpre]⟩

/-! ## The loops on every argument list -/

theorem Body.index_eq {body : CStr → Loop → Except Fault Loop} (hb : Body body)
    {f : CStr} {st st' : Loop} (h : body f st = .ok st') : st'.index = st.index := by
  have := hb.index_free f st.index st.rd_mode_string st.out
  rw [show (⟨st.index, st.rd_mode_string, st.out⟩ : Loop) = st from rfl, h] at this
  cases h0 : body f ⟨0, st.rd_mode_string, st.out⟩ with
  | error e => rw [h0] at this; cases this
  | ok st0 =>
    rw [h0] at this
    simp only [Except.map, Except.ok.injEq] at this
    rw [this]

theorem Body.no_fuel {body : CStr → Loop → Except Fault Loop} (hb : Body body)
    (f : CStr) (st : Loop) : body f st ≠ .error Fault.fuel := by
  intro h
  rcases hb.faults f st _ h with h1 | h1 <;> cases h1

theorem body_set_flag : Body set_flag where
  index_free := by
    intro f i s o
    unfold set_flag
    split <;> rfl
  one_line := by
    intro f st st' h
    unfold set_flag at h
    split at h <;> (injection h with h; subst h; simp)
  faults := by
    intro f st e h
    unfold set_flag at h
    split at h <;> cases h

theorem body_clear_flag : Body clear_flag where
  index_free := by
    intro f i s o
    unfold clear_flag
    cases strstr s f with
    | none => rfl
    | some k =>
      by_cases hk : k = 0
      · simp [hk, Except.map]
      · by_cases ho : f.length < s.length - (k + f.length)
        · simp [hk, ho, Except.map]
        · simp [hk, ho, Except.map]
  one_line := by
    intro f st st' h
    unfold clear_flag at h
    split at h
    · split at h
      · cases h
      · split at h
        · cases h
        · injection h with h; subst h; simp
    · injection h with h; subst h; simp
  faults := by
    intro f st e h
    unfold clear_flag at h
    split at h
    · split at h
      · injection h with h; exact Or.inl h.symm
      · split at h
        · injection h with h; exact Or.inr h.symm
        · cases h
    · cases h

theorem flag_loop_succ (body : CStr → Loop → Except Fault Loop) (argv : List CStr)
    (fuel i : Nat) (st : Loop) :
    flag_loop body argv (fuel + 1) i st =
      if st.index < argv.length ∧ i < 9 then
        if argv.getD st.index [] = rd_mode_flags.getD i [] then
          match body (rd_mode_flags.getD i []) st with
          | .error f => .error f
          | .ok st => flag_loop body argv fuel 2 { st with index := st.index + 1 }
        else flag_loop body argv fuel (i + 1) st
      else .ok (i, st) := by
  rw [flag_loop]

/-- More fuel does not change a result of the flag loop. -/
theorem flag_loop_mono (body : CStr → Loop → Except Fault Loop) (argv : List CStr) (k : Nat) :
    ∀ (fuel i : Nat) (st : Loop), flag_loop body argv fuel i st ≠ .error Fault.fuel →
      flag_loop body argv (fuel + k) i st = flag_loop body argv fuel i st
  | 0, i, st, h => by simp [flag_loop] at h
  | fuel + 1, i, st, h => by
    rw [show fuel + 1 + k = (fuel + k) + 1 by omega]
    rw [flag_loop_succ] at h
    rw [flag_loop_succ, flag_loop_succ]
    by_cases hc : st.index < argv.length ∧ i < 9
    · simp only [hc, and_self, if_true] at h ⊢
      by_cases hm : argv.getD st.index [] = rd_mode_flags.getD i []
      · simp only [hm, if_true] at h ⊢
        cases hb : body (rd_mode_flags.getD i []) st with
        | error e => rfl
        | ok st1 =>
          rw [hb] at h
          exact flag_loop_mono body argv k fuel _ _ h
      · simp only [hm, if_false] at h ⊢
        exact flag_loop_mono body argv k fuel _ _ h
    · simp only [hc, if_false]

/-- The flag loop does not run out of fuel. -/
theorem flag_loop_fuel {body : CStr → Loop → Except Fault Loop} (hb : Body body)
    (argv : List CStr) :
    ∀ (fuel i : Nat) (st : Loop), i ≤ 9 → 8 * (argv.length - st.index) + (9 - i) < fuel →
      flag_loop body argv fuel i st ≠ .error Fault.fuel
  | 0, i, st, _, h => by omega
  | fuel + 1, i, st, hi, h => by
    rw [flag_loop_succ]
    by_cases hc : st.index < argv.length ∧ i < 9
    · simp only [hc, and_self, if_true]
      by_cases hm : argv.getD st.index [] = rd_mode_flags.getD i []
      · simp only [hm, if_true]
        cases hbd : body (rd_mode_flags.getD i []) st with
        | error e =>
          intro he
          injection he with he
          exact hb.no_fuel _ _ (he ▸ hbd)
        | ok st1 =>
          have hidx := hb.index_eq hbd
          exact flag_loop_fuel hb argv fuel 2 _ (by omega) (by simp only [hidx]; omega)
      · simp only [hm, if_false]
        exact flag_loop_fuel hb argv fuel (i + 1) st (by omega) (by omega)
    · simp only [hc, if_false]
      intro he; cases he

/-- The rule of the flag loop: a property that holds at the start, and is kept by a
matched flag and by a skipped catalog entry, holds at the end, where the loop condition
is false. -/
theorem flag_loop_rule (body : CStr → Loop → Except Fault Loop) (argv : List CStr)
    (I : Nat → Loop → Prop)
    (hmatch : ∀ i st st1, I i st → st.index < argv.length → i < 9 →
      argv.getD st.index [] = rd_mode_flags.getD i [] →
      body (rd_mode_flags.getD i []) st = .ok st1 → I 2 { st1 with index := st1.index + 1 })
    (hskip : ∀ i st, I i st → st.index < argv.length → i < 9 →
      argv.getD st.index [] ≠ rd_mode_flags.getD i [] → I (i + 1) st) :
    ∀ (fuel i : Nat) (st : Loop) (i' : Nat) (st' : Loop), I i st →
      flag_loop body argv fuel i st = .ok (i', st') →
      I i' st' ∧ ¬ (st'.index < argv.length ∧ i' < 9)
  | 0, i, st, i', st', _, h => by simp [flag_loop] at h
  | fuel + 1, i, st, i', st', hI, h => by
    rw [flag_loop_succ] at h
    by_cases hc : st.index < argv.length ∧ i < 9
    · simp only [hc, and_self, if_true] at h
      by_cases hm : argv.getD st.index [] = rd_mode_flags.getD i []
      · simp only [hm, if_true] at h
        cases hbd : body (rd_mode_flags.getD i []) st with
        | error e => rw [hbd] at h; cases h
        | ok st1 =>
          rw [hbd] at h
          exact flag_loop_rule body argv I hmatch hskip fuel 2 _ i' st'
            (hmatch i st st1 hI hc.1 hc.2 hm hbd) h
      · simp only [hm, if_false] at h
        exact flag_loop_rule body argv I hmatch hskip fuel (i + 1) st i' st'
          (hskip i st hI hc.1 hc.2 hm) h
    · simp only [hc, if_false, Except.ok.injEq, Prod.mk.injEq] at h
      obtain ⟨rfl, rfl⟩ := h
      exact ⟨hI, hc⟩

theorem iteration_w (argv : List CStr) (st : Loop)
    (h : argv.getD st.index [] = "-w".toList) :
    iteration argv st =
      if st.index + 1 < argv.length then
        .ok ⟨st.index + 2, argv.getD (st.index + 1) [],
          st.out ++ ["\"".toList ++ argv.getD (st.index + 1) [] ++ "\" was written.\n".toList]⟩
      else .ok ⟨st.index + 2, st.rd_mode_string, st.out⟩ := by
  unfold iteration
  simp only [h, show ¬ ("-w".toList = "-h".toList) by decide,
    show ¬ ("-w".toList = "-l".toList) by decide, show ¬ ("-w".toList = "-p".toList) by decide,
    show ¬ ("-w".toList = "-e".toList) by decide, show ¬ ("-w".toList = "-d".toList) by decide,
    show ¬ ("-w".toList = "-q".toList) by decide, show ¬ ("-w".toList = "-s".toList) by decide,
    show ¬ ("-w".toList = "-c".toList) by decide, if_false, if_true]
  by_cases hc : st.index + 1 < argv.length
  · simp only [hc, if_true]; rfl
  · simp only [hc, if_false]; rfl

theorem iteration_h (argv : List CStr) (st : Loop)
    (h : argv.getD st.index [] = "-h".toList) :
    iteration argv st = .ok ⟨st.index + 1, st.rd_mode_string, st.out ++ help_lines⟩ := by
  unfold iteration
  simp only [h]
  rfl

theorem iteration_l (argv : List CStr) (st : Loop)
    (h : argv.getD st.index [] = "-l".toList) :
    iteration argv st = .ok ⟨st.index + 1, st.rd_mode_string, st.out ++ list_lines⟩ := by
  unfold iteration
  simp only [h]
  rfl

theorem iteration_p (argv : List CStr) (st : Loop)
    (h : argv.getD st.index [] = "-p".toList) :
    iteration argv st =
      .ok ⟨st.index + 1, st.rd_mode_string, st.out ++ [st.rd_mode_string ++ "\n".toList]⟩ := by
  unfold iteration
  simp only [h]
  rfl

theorem iteration_e (argv : List CStr) (st : Loop)
    (h : argv.getD st.index [] = "-e".toList) :
    iteration argv st =
      .ok ⟨st.index + 1, "master".toList, st.out ++ ["R&D Mode enabled.\n".toList]⟩ := by
  unfold iteration
  simp only [h]
  rfl

theorem iteration_d (argv : List CStr) (st : Loop)
    (h : argv.getD st.index [] = "-d".toList) :
    iteration argv st =
      .ok ⟨st.index + 1, [], st.out ++ ["R&D Mode disabled.\n".toList]⟩ := by
  unfold iteration
  simp only [h]
  rfl

/-- A token that is not an option is skipped. -/
theorem iteration_other (argv : List CStr) (st : Loop)
    (h : argv.getD st.index [] ∉ options) :
    iteration argv st = .ok ⟨st.index + 1, st.rd_mode_string, st.out⟩ := by
  simp only [options, List.mem_cons, List.mem_singleton, List.not_mem_nil, or_false,
    not_or] at h
  obtain ⟨h1, h2, h3, h4, h5, h6, h7, h8, h9⟩ := h
  unfold iteration
  simp only [h1, h2, h3, h4, h5, h6, h7, h8, h9, if_false]
  rfl

/-- The nine cases of an iteration. -/
theorem iteration_cases (argv : List CStr) (st : Loop) :
    argv.getD st.index [] = "-h".toList ∨ argv.getD st.index [] = "-l".toList ∨
    argv.getD st.index [] = "-p".toList ∨ argv.getD st.index [] = "-e".toList ∨
    argv.getD st.index [] = "-d".toList ∨ argv.getD st.index [] = "-q".toList ∨
    argv.getD st.index [] = "-s".toList ∨ argv.getD st.index [] = "-c".toList ∨
    argv.getD st.index [] = "-w".toList ∨ argv.getD st.index [] ∉ options := by
  generalize argv.getD st.index [] = a
  by_cases h : a ∈ options
  · simp only [options, List.mem_cons, List.mem_singleton, List.not_mem_nil, or_false] at h
    tauto
  · tauto

/-- The flag loop never moves `index` back. -/
theorem flag_loop_index_le {body : CStr → Loop → Except Fault Loop} (hb : Body body)
    (argv : List CStr) (fuel i : Nat) (st : Loop) (i' : Nat) (st' : Loop)
    (h : flag_loop body argv fuel i st = .ok (i', st')) : st.index ≤ st'.index :=
  (flag_loop_rule body argv (fun _ s => st.index ≤ s.index)
    (fun _ s s1 hI _ _ _ hbd => by
      have := hb.index_eq hbd
      simp only [this]; omega)
    (fun _ _ hI _ _ _ => hI) fuel i st i' st' (Nat.le_refl _) h).1

/-- What an iteration on `-s` or `-c` returns, in terms of the flag loop. -/
theorem iteration_flag_loop (argv : List CStr) (st : Loop) :
    (argv.getD st.index [] = "-s".toList ∨ argv.getD st.index [] = "-c".toList) →
    ∃ body, Body body ∧
      (body = set_flag ∧ argv.getD st.index [] = "-s".toList ∨
        body = clear_flag ∧ argv.getD st.index [] = "-c".toList) ∧
      iteration argv st =
        ((flag_loop body argv (9 * argv.length) 1 { st with index := st.index + 1 }).map
          after_flag_loop).map fun st => { st with index := st.index + 1 } := by
  rintro (h | h)
  · exact ⟨set_flag, body_set_flag, Or.inl ⟨rfl, h⟩, iteration_s argv st h⟩
  · exact ⟨clear_flag, body_clear_flag, Or.inr ⟨rfl, h⟩, iteration_c argv st h⟩

/-- Every iteration that ends leaves `index` greater than it found it. -/
theorem iteration_progress (argv : List CStr) (st st' : Loop)
    (h : iteration argv st = .ok st') : st.index < st'.index := by
  rcases iteration_cases argv st with hc | hc | hc | hc | hc | hc | hc | hc | hc | hc
  · rw [iteration_h argv st hc] at h; injection h with h; subst h; simp
  · rw [iteration_l argv st hc] at h; injection h with h; subst h; simp
  · rw [iteration_p argv st hc] at h; injection h with h; subst h; simp
  · rw [iteration_e argv st hc] at h; injection h with h; subst h; simp
  · rw [iteration_d argv st hc] at h; injection h with h; subst h; simp
  · rw [iteration_q argv st hc] at h; injection h with h; subst h; simp
  · obtain ⟨body, hb, _, heq⟩ := iteration_flag_loop argv st (Or.inl hc)
    rw [heq] at h
    cases hfl : flag_loop body argv (9 * argv.length) 1 { st with index := st.index + 1 } with
    | error e => rw [hfl] at h; cases h
    | ok r =>
      obtain ⟨i', st1⟩ := r
      have hle := flag_loop_index_le hb argv _ _ _ _ _ hfl
      rw [hfl] at h
      simp only [Except.map, after_flag_loop, Except.ok.injEq] at h
      subst h
      simp only at hle
      split <;> simp only <;> omega
  · obtain ⟨body, hb, _, heq⟩ := iteration_flag_loop argv st (Or.inr hc)
    rw [heq] at h
    cases hfl : flag_loop body argv (9 * argv.length) 1 { st with index := st.index + 1 } with
    | error e => rw [hfl] at h; cases h
    | ok r =>
      obtain ⟨i', st1⟩ := r
      have hle := flag_loop_index_le hb argv _ _ _ _ _ hfl
      rw [hfl] at h
      simp only [Except.map, after_flag_loop, Except.ok.injEq] at h
      subst h
      simp only at hle
      split <;> simp only <;> omega
  · rw [iteration_w argv st hc] at h
    split at h <;> (injection h with h; subst h; simp)
  · rw [iteration_other argv st hc] at h; injection h with h; subst h; simp

/-- An iteration does not run out of fuel. -/
theorem iteration_fuel (argv : List CStr) (st : Loop) (hidx : st.index < argv.length) :
    iteration argv st ≠ .error Fault.fuel := by
  rcases iteration_cases argv st with hc | hc | hc | hc | hc | hc | hc | hc | hc | hc
  · rw [iteration_h argv st hc]; intro h; cases h
  · rw [iteration_l argv st hc]; intro h; cases h
  · rw [iteration_p argv st hc]; intro h; cases h
  · rw [iteration_e argv st hc]; intro h; cases h
  · rw [iteration_d argv st hc]; intro h; cases h
  · rw [iteration_q argv st hc]; intro h; cases h
  · obtain ⟨body, hb, _, heq⟩ := iteration_flag_loop argv st (Or.inl hc)
    rw [heq]
    have hf := flag_loop_fuel hb argv (9 * argv.length) 1 { st with index := st.index + 1 }
      (by omega) (by simp only; omega)
    cases hfl : flag_loop body argv (9 * argv.length) 1 { st with index := st.index + 1 } with
    | error e =>
      intro h
      simp only [Except.map] at h
      injection h with h
      exact hf (h ▸ hfl)
    | ok r => intro h; cases h
  · obtain ⟨body, hb, _, heq⟩ := iteration_flag_loop argv st (Or.inr hc)
    rw [heq]
    have hf := flag_loop_fuel hb argv (9 * argv.length) 1 { st with index := st.index + 1 }
      (by omega) (by simp only; omega)
    cases hfl : flag_loop body argv (9 * argv.length) 1 { st with index := st.index + 1 } with
    | error e =>
      intro h
      simp only [Except.map] at h
      injection h with h
      exact hf (h ▸ hfl)
    | ok r => intro h; cases h
  · rw [iteration_w argv st hc]
    split <;> (intro h; cases h)
  · rw [iteration_other argv st hc]; intro h; cases h

/-- The only faults of the flag loop are the underflow, the overlap and the end of the
fuel. -/
theorem flag_loop_error {body : CStr → Loop → Except Fault Loop} (hb : Body body)
    (argv : List CStr) :
    ∀ (fuel i : Nat) (st : Loop) (e : Fault), flag_loop body argv fuel i st = .error e →
      e = Fault.fuel ∨ e = Fault.underflow ∨ e = Fault.overlap
  | 0, i, st, e, h => by
    simp only [flag_loop, Except.error.injEq] at h
    exact Or.inl h.symm
  | fuel + 1, i, st, e, h => by
    rw [flag_loop_succ] at h
    by_cases hc : st.index < argv.length ∧ i < 9
    · simp only [hc, and_self, if_true] at h
      by_cases hm : argv.getD st.index [] = rd_mode_flags.getD i []
      · simp only [hm, if_true] at h
        cases hbd : body (rd_mode_flags.getD i []) st with
        | error e1 =>
          rw [hbd] at h
          injection h with h
          exact Or.inr (h ▸ hb.faults _ _ _ hbd)
        | ok st1 =>
          rw [hbd] at h
          exact flag_loop_error hb argv fuel _ _ e h
      · simp only [hm, if_false] at h
        exact flag_loop_error hb argv fuel _ _ e h
    · simp only [hc, if_false] at h
      cases h

/-- The only faults of an iteration are the underflow and the overlap of a clear. -/
theorem iteration_error (argv : List CStr) (st : Loop) (hidx : st.index < argv.length)
    (e : Fault) (h : iteration argv st = .error e) :
    e = Fault.underflow ∨ e = Fault.overlap := by
  have hfuel := iteration_fuel argv st hidx
  rcases iteration_cases argv st with hc | hc | hc | hc | hc | hc | hc | hc | hc | hc
  · rw [iteration_h argv st hc] at h; cases h
  · rw [iteration_l argv st hc] at h; cases h
  · rw [iteration_p argv st hc] at h; cases h
  · rw [iteration_e argv st hc] at h; cases h
  · rw [iteration_d argv st hc] at h; cases h
  · rw [iteration_q argv st hc] at h; cases h
  · obtain ⟨body, hb, _, heq⟩ := iteration_flag_loop argv st (Or.inl hc)
    rw [heq] at h
    cases hfl : flag_loop body argv (9 * argv.length) 1 { st with index := st.index + 1 } with
    | error e1 =>
      rw [hfl] at h
      simp only [Except.map] at h
      injection h with h
      subst h
      rcases flag_loop_error hb argv _ _ _ _ hfl with he | he
      · exact absurd (he ▸ heq.trans (by rw [hfl]; rfl)) hfuel
      · exact he
    | ok r => rw [hfl] at h; cases h
  · obtain ⟨body, hb, _, heq⟩ := iteration_flag_loop argv st (Or.inr hc)
    rw [heq] at h
    cases hfl : flag_loop body argv (9 * argv.length) 1 { st with index := st.index + 1 } with
    | error e1 =>
      rw [hfl] at h
      simp only [Except.map] at h
      injection h with h
      subst h
      rcases flag_loop_error hb argv _ _ _ _ hfl with he | he
      · exact absurd (he ▸ heq.trans (by rw [hfl]; rfl)) hfuel
      · exact he
    | ok r => rw [hfl] at h; cases h
  · rw [iteration_w argv st hc] at h
    split at h <;> cases h
  · rw [iteration_other argv st hc] at h; cases h

theorem command_loop_succ (argv : List CStr) (fuel : Nat) (st : Loop) :
    command_loop argv (fuel + 1) st =
      if st.index < argv.length then
        match iteration argv st with
        | .error f => .error f
        | .ok st => command_loop argv fuel st
      else .ok st := by
  rw [command_loop]

/-- More fuel does not change a result of the command loop. -/
theorem command_loop_mono (argv : List CStr) (k : Nat) :
    ∀ (fuel : Nat) (st : Loop), command_loop argv fuel st ≠ .error Fault.fuel →
      command_loop argv (fuel + k) st = command_loop argv fuel st
  | 0, st, h => by simp [command_loop] at h
  | fuel + 1, st, h => by
    rw [show fuel + 1 + k = (fuel + k) + 1 by omega]
    rw [command_loop_succ] at h
    rw [command_loop_succ, command_loop_succ]
    by_cases hc : st.index < argv.length
    · simp only [hc, if_true] at h ⊢
      cases hit : iteration argv st with
      | error e => rfl
      | ok st1 =>
        rw [hit] at h
        exact command_loop_mono argv k fuel _ h
    · simp only [hc, if_false]

/-- The command loop ends, or stops on the underflow or the overlap of a clear, within
`argc - index` iterations. -/
theorem command_loop_total (argv : List CStr) :
    ∀ (fuel : Nat) (st : Loop), argv.length - st.index < fuel →
      (∃ st', command_loop argv fuel st = .ok st' ∧ ¬ st'.index < argv.length) ∨
        command_loop argv fuel st = .error Fault.underflow ∨
        command_loop argv fuel st = .error Fault.overlap
  | 0, st, h => by omega
  | fuel + 1, st, h => by
    rw [command_loop_succ]
    by_cases hc : st.index < argv.length
    · simp only [hc, if_true]
      cases hit : iteration argv st with
      | error e =>
        right
        rcases iteration_error argv st hc e hit with he | he
        · exact Or.inl (by rw [he])
        · exact Or.inr (by rw [he])
      | ok st1 =>
        have := iteration_progress argv st st1 hit
        exact command_loop_total argv fuel st1 (by omega)
    · simp only [hc, if_false]
      exact Or.inl ⟨st, rfl, hc⟩

/-- The rule of the command loop: a property that holds at the start and is kept by every
iteration holds at the end. -/
theorem command_loop_rule (argv : List CStr) (I : Loop → Prop)
    (hstep : ∀ st st', I st → st.index < argv.length → iteration argv st = .ok st' → I st') :
    ∀ (fuel : Nat) (st st' : Loop), I st → command_loop argv fuel st = .ok st' → I st'
  | 0, st, st', _, h => by simp [command_loop] at h
  | fuel + 1, st, st', hI, h => by
    rw [command_loop_succ] at h
    by_cases hc : st.index < argv.length
    · simp only [hc, if_true] at h
      cases hit : iteration argv st with
      | error e => rw [hit] at h; cases h
      | ok st1 =>
        rw [hit] at h
        exact command_loop_rule argv I hstep fuel st1 st' (hstep st st1 hI hc hit) h
    · simp only [hc, if_false, Except.ok.injEq] at h
      exact h ▸ hI

/-! ## Dropping a skipped token -/

/-- The state `st` with `index` one further. -/
theorem shift_after_flag_loop (i' : Nat) (st : Loop) (h : 1 ≤ st.index) :
    after_flag_loop (i', { st with index := st.index + 1 }) =
      { after_flag_loop (i', st) with index := (after_flag_loop (i', st)).index + 1 } := by
  unfold after_flag_loop
  split
  · simp only [Loop.mk.injEq, and_true]; omega
  · rfl

/-- The flag loop on two argument lists that agree up to a shift of the index by one. -/
theorem flag_loop_shift {body : CStr → Loop → Except Fault Loop} (hb : Body body)
    (A B : List CStr) (hlen : A.length = B.length + 1)
    (hsh : ∀ k, 1 ≤ k → A.getD (k + 1) [] = B.getD k []) :
    ∀ (fuel i idx : Nat) (s : CStr) (o : List CStr), 1 ≤ idx →
      flag_loop body A fuel i ⟨idx + 1, s, o⟩ =
        (flag_loop body B fuel i ⟨idx, s, o⟩).map fun r =>
          (r.1, { r.2 with index := r.2.index + 1 })
  | 0, i, idx, s, o, _ => rfl
  | fuel + 1, i, idx, s, o, hidx => by
    rw [flag_loop_succ, flag_loop_succ]
    simp only [hlen, hsh idx hidx, Nat.add_lt_add_iff_right]
    by_cases hc : idx < B.length ∧ i < 9
    · simp only [hc, and_self, if_true]
      by_cases hm : B.getD idx [] = rd_mode_flags.getD i []
      · simp only [hm, if_true]
        rw [hb.index_free _ (idx + 1) s o, hb.index_free _ idx s o]
        cases body (rd_mode_flags.getD i []) ⟨0, s, o⟩ with
        | error e => rfl
        | ok st0 =>
          simp only [Except.map]
          exact flag_loop_shift hb A B hlen hsh fuel 2 (idx + 1) _ _ (by omega)
      · simp only [hm, if_false]
        exact flag_loop_shift hb A B hlen hsh fuel (i + 1) idx s o hidx
    · simp only [hc, if_false]
      rfl

/-- The iteration on `-s` or `-c` on two argument lists that agree up to a shift of the
index by one. -/
theorem iteration_flag_shift {body : CStr → Loop → Except Fault Loop} (hb : Body body)
    (A B : List CStr) (hlen : A.length = B.length + 1)
    (hsh : ∀ k, 1 ≤ k → A.getD (k + 1) [] = B.getD k [])
    (idx : Nat) (s : CStr) (o : List CStr) (hidx : 1 ≤ idx) (hB : idx < B.length) :
    ((flag_loop body A (9 * A.length) 1 ⟨idx + 1 + 1, s, o⟩).map after_flag_loop).map
        (fun st => { st with index := st.index + 1 }) =
      (((flag_loop body B (9 * B.length) 1 ⟨idx + 1, s, o⟩).map after_flag_loop).map
        (fun st => { st with index := st.index + 1 })).map
        fun st => { st with index := st.index + 1 } := by
  have hfuel := flag_loop_fuel hb B (9 * B.length) 1 ⟨idx + 1, s, o⟩ (by omega)
    (by simp only; omega)
  have hmono := flag_loop_mono body B 9 (9 * B.length) 1 ⟨idx + 1, s, o⟩ hfuel
  rw [flag_loop_shift hb A B hlen hsh (9 * A.length) 1 (idx + 1) s o (by omega),
    show 9 * A.length = 9 * B.length + 9 by omega, hmono]
  cases hfl : flag_loop body B (9 * B.length) 1 ⟨idx + 1, s, o⟩ with
  | error e => rfl
  | ok r =>
    obtain ⟨i', st'⟩ := r
    have hle := flag_loop_index_le hb B _ _ _ _ _ hfl
    simp only [Except.map]
    rw [shift_after_flag_loop i' st' (by simp only at hle; omega)]

/-- An iteration on two argument lists that agree up to a shift of the index by one. -/
theorem iteration_shift (A B : List CStr) (hlen : A.length = B.length + 1)
    (hsh : ∀ k, 1 ≤ k → A.getD (k + 1) [] = B.getD k [])
    (idx : Nat) (s : CStr) (o : List CStr) (hidx : 1 ≤ idx) (hB : idx < B.length) :
    iteration A ⟨idx + 1, s, o⟩ =
      (iteration B ⟨idx, s, o⟩).map fun st => { st with index := st.index + 1 } := by
  have harg : A.getD (⟨idx + 1, s, o⟩ : Loop).index [] = B.getD (⟨idx, s, o⟩ : Loop).index [] :=
    hsh idx hidx
  rcases iteration_cases B ⟨idx, s, o⟩ with hc | hc | hc | hc | hc | hc | hc | hc | hc | hc
  · rw [iteration_h B _ hc, iteration_h A _ (harg.trans hc)]; rfl
  · rw [iteration_l B _ hc, iteration_l A _ (harg.trans hc)]; rfl
  · rw [iteration_p B _ hc, iteration_p A _ (harg.trans hc)]; rfl
  · rw [iteration_e B _ hc, iteration_e A _ (harg.trans hc)]; rfl
  · rw [iteration_d B _ hc, iteration_d A _ (harg.trans hc)]; rfl
  · rw [iteration_q B _ hc, iteration_q A _ (harg.trans hc)]; rfl
  · rw [iteration_s B _ hc, iteration_s A _ (harg.trans hc)]
    exact iteration_flag_shift body_set_flag A B hlen hsh idx s o hidx hB
  · rw [iteration_c B _ hc, iteration_c A _ (harg.trans hc)]
    exact iteration_flag_shift body_clear_flag A B hlen hsh idx s o hidx hB
  · rw [iteration_w B _ hc, iteration_w A _ (harg.trans hc)]
    simp only [hlen, Nat.add_lt_add_iff_right, hsh (idx + 1) (by omega)]
    split <;> rfl
  · rw [iteration_other B _ hc, iteration_other A _ (harg ▸ hc)]; rfl

/-- The command loop on two argument lists that agree up to a shift of the index by one. -/
theorem command_loop_shift (A B : List CStr) (hlen : A.length = B.length + 1)
    (hsh : ∀ k, 1 ≤ k → A.getD (k + 1) [] = B.getD k []) :
    ∀ (fuel idx : Nat) (s : CStr) (o : List CStr), 1 ≤ idx →
      command_loop A fuel ⟨idx + 1, s, o⟩ =
        (command_loop B fuel ⟨idx, s, o⟩).map fun st => { st with index := st.index + 1 }
  | 0, idx, s, o, _ => rfl
  | fuel + 1, idx, s, o, hidx => by
    rw [command_loop_succ, command_loop_succ]
    simp only [hlen, Nat.add_lt_add_iff_right]
    by_cases hc : idx < B.length
    · simp only [hc, if_true]
      rw [iteration_shift A B hlen hsh idx s o hidx hc]
      cases hit : iteration B ⟨idx, s, o⟩ with
      | error e => rfl
      | ok st1 =>
        have hp := iteration_progress B _ _ hit
        simp only [Except.map]
        exact command_loop_shift A B hlen hsh fuel st1.index st1.rd_mode_string st1.out
          (by simp only at hp; omega)
    · simp only [hc, if_false]
      rfl

/-- A leading token that is not an option is skipped: the command loop does on
`prog :: u :: rest` what it does on `prog :: rest`, one index further. -/
theorem command_loop_skip (prog u : CStr) (rest : List CStr) (hu : u ∉ options)
    (cur : CStr) (out : List CStr) :
    command_loop (prog :: u :: rest) (prog :: u :: rest).length ⟨1, cur, out⟩ =
      (command_loop (prog :: rest) (prog :: rest).length ⟨1, cur, out⟩).map
        fun st => { st with index := st.index + 1 } := by
  have hlen : (prog :: u :: rest).length = (prog :: rest).length + 1 := rfl
  have hsh : ∀ k, 1 ≤ k → (prog :: u :: rest).getD (k + 1) [] = (prog :: rest).getD k [] := by
    intro k hk
    obtain ⟨j, rfl⟩ : ∃ j, k = j + 1 := ⟨k - 1, by omega⟩
    rfl
  rw [hlen, command_loop_succ,
    if_pos (show (⟨1, cur, out⟩ : Loop).index < (prog :: u :: rest).length by simp),
    iteration_other _ _ (by simpa using hu)]
  exact command_loop_shift _ _ hlen hsh _ 1 cur out (Nat.le_refl 1)

theorem main_cal_skip (w : World) (prog u : CStr) (rest : List CStr) (hu : u ∉ options)
    (ns nd : Bool) :
    main_cal w (prog :: u :: rest) ns nd = main_cal w (prog :: rest) ns nd := by
  have h := command_loop_skip prog u rest hu (load w.cal_read_block).1 []
  unfold main_cal
  simp only [h]
  cases command_loop (prog :: rest) (prog :: rest).length
    ⟨1, (load w.cal_read_block).1, []⟩ <;> rfl

theorem main_mount_devshm_skip (w : World) (prog u : CStr) (rest : List CStr)
    (hu : u ∉ options) (nd : Bool) (t : Int) :
    main_mount_devshm w (prog :: u :: rest) nd t = main_mount_devshm w (prog :: rest) nd t := by
  unfold main_mount_devshm
  rw [main_cal_skip w prog u rest hu]

theorem main_mount_dev_skip (w : World) (prog u : CStr) (rest : List CStr)
    (hu : u ∉ options) (t : Int) :
    main_mount_dev w (prog :: u :: rest) t = main_mount_dev w (prog :: rest) t := by
  unfold main_mount_dev
  rw [main_mount_devshm_skip w prog u rest hu]

theorem main_no_devshm_skip (w : World) (prog u : CStr) (rest : List CStr)
    (hu : u ∉ options) (err : Bool) (t : Int) :
    main_no_devshm w (prog :: u :: rest) err t = main_no_devshm w (prog :: rest) err t := by
  unfold main_no_devshm
  simp only [main_mount_devshm_skip w prog u rest hu, main_mount_dev_skip w prog u rest hu]

theorem main_skip (w : World) (prog u r : CStr) (rest : List CStr) (hu : u ∉ options) :
    main w (prog :: u :: r :: rest) = main w (prog :: r :: rest) := by
  unfold main
  simp only [List.length_cons, Nat.add_eq_zero, one_ne_zero, and_false, if_false,
    Nat.add_eq_right, main_no_devshm_skip w prog u (r :: rest) hu,
    main_cal_skip w prog u (r :: rest) hu]

/-! ## What the flag loop consumes -/

theorem mem_flags_tail_iff (x : CStr) :
    x ∈ rd_mode_flags.tail ↔ ∃ j, 1 ≤ j ∧ j < 9 ∧ x = rd_mode_flags.getD j [] := by
  constructor
  · intro h
    simp only [rd_mode_flags, List.tail_cons, List.mem_cons, List.mem_singleton,
      List.not_mem_nil, or_false] at h
    rcases h with h | h | h | h | h | h | h | h
    · exact ⟨1, by omega, by omega, h⟩
    · exact ⟨2, by omega, by omega, h⟩
    · exact ⟨3, by omega, by omega, h⟩
    · exact ⟨4, by omega, by omega, h⟩
    · exact ⟨5, by omega, by omega, h⟩
    · exact ⟨6, by omega, by omega, h⟩
    · exact ⟨7, by omega, by omega, h⟩
    · exact ⟨8, by omega, by omega, h⟩
  · rintro ⟨j, h1, h9, rfl⟩
    interval_cases j <;> decide

theorem mem_flags_drop_iff (x : CStr) :
    x ∈ rd_mode_flags.drop 2 ↔ ∃ j, 2 ≤ j ∧ j < 9 ∧ x = rd_mode_flags.getD j [] := by
  constructor
  · intro h
    simp only [rd_mode_flags, List.drop_succ_cons, List.drop_zero, List.mem_cons,
      List.mem_singleton, List.not_mem_nil, or_false] at h
    rcases h with h | h | h | h | h | h | h
    · exact ⟨2, by omega, by omega, h⟩
    · exact ⟨3, by omega, by omega, h⟩
    · exact ⟨4, by omega, by omega, h⟩
    · exact ⟨5, by omega, by omega, h⟩
    · exact ⟨6, by omega, by omega, h⟩
    · exact ⟨7, by omega, by omega, h⟩
    · exact ⟨8, by omega, by omega, h⟩
  · rintro ⟨j, h2, h9, rfl⟩
    interval_cases j <;> decide

/-- A fault of the flag loop that is not the end of the fuel is a fault of its body. -/
theorem flag_loop_error_body (body : CStr → Loop → Except Fault Loop) (argv : List CStr) :
    ∀ (fuel i : Nat) (st : Loop) (e : Fault), flag_loop body argv fuel i st = .error e →
      e = Fault.fuel ∨ ∃ f s, body f s = .error e
  | 0, i, st, e, h => by
    simp only [flag_loop, Except.error.injEq] at h
    exact Or.inl h.symm
  | fuel + 1, i, st, e, h => by
    rw [flag_loop_succ] at h
    by_cases hc : st.index < argv.length ∧ i < 9
    · simp only [hc, and_self, if_true] at h
      by_cases hm : argv.getD st.index [] = rd_mode_flags.getD i []
      · simp only [hm, if_true] at h
        cases hbd : body (rd_mode_flags.getD i []) st with
        | error e1 =>
          rw [hbd] at h
          injection h with h
          exact Or.inr ⟨_, _, h ▸ hbd⟩
        | ok st1 =>
          rw [hbd] at h
          exact flag_loop_error_body body argv fuel _ _ e h
      · simp only [hm, if_false] at h
        exact flag_loop_error_body body argv fuel _ _ e h
    · simp only [hc, if_false] at h
      cases h

/-- An iteration on `-s` always ends. -/
theorem iteration_s_ok (argv : List CStr) (st : Loop) (hidx : st.index < argv.length)
    (h : argv.getD st.index [] = "-s".toList) : ∃ st', iteration argv st = .ok st' := by
  cases hit : iteration argv st with
  | ok st' => exact ⟨st', rfl⟩
  | error e =>
    exfalso
    have hfuel := iteration_fuel argv st hidx
    rw [iteration_s argv st h] at hit hfuel
    cases hfl : flag_loop set_flag argv (9 * argv.length) 1 { st with index := st.index + 1 } with
    | ok r => rw [hfl] at hit; cases hit
    | error e1 =>
      rw [hfl] at hfuel
      rcases flag_loop_error_body set_flag argv _ _ _ _ hfl with he | ⟨f, s, hbd⟩
      · exact hfuel (by rw [he]; rfl)
      · unfold set_flag at hbd
        split at hbd <;> cases hbd

/-- The tokens an iteration on `-s` or `-c` passes over are flag names. -/
theorem iteration_consumes_flags (argv : List CStr) (st st' : Loop)
    (hopt : argv.getD st.index [] = "-s".toList ∨ argv.getD st.index [] = "-c".toList)
    (h : iteration argv st = .ok st') :
    ∀ q, st.index < q → q < st'.index → q < argv.length →
      argv.getD q [] ∈ rd_mode_flags.tail := by
  obtain ⟨body, hb, _, heq⟩ := iteration_flag_loop argv st hopt
  rw [heq] at h
  cases hfl : flag_loop body argv (9 * argv.length) 1 { st with index := st.index + 1 } with
  | error e => rw [hfl] at h; cases h
  | ok r =>
    obtain ⟨i', s'⟩ := r
    rw [hfl] at h
    simp only [Except.map, Except.ok.injEq] at h
    have hrule := flag_loop_rule body argv
      (fun i s => 1 ≤ i ∧ i ≤ 9 ∧ st.index + 1 ≤ s.index ∧
        ∀ q, st.index < q → q < s.index → argv.getD q [] ∈ rd_mode_flags.tail)
      (fun i s s1 hI hlt hi9 hm hbd => by
        obtain ⟨h1, _, hle, hall⟩ := hI
        have hidx := hb.index_eq hbd
        refine ⟨by omega, by omega, by simp only [hidx]; omega, ?_⟩
        intro q hq hq'
        simp only [hidx] at hq'
        by_cases hqs : q < s.index
        · exact hall q hq hqs
        · have : q = s.index := by omega
          rw [this, hm]
          exact (mem_flags_tail_iff _).2 ⟨i, h1, hi9, rfl⟩)
      (fun i s hI _ hi9 _ => ⟨by omega, by omega, hI.2.2.1, hI.2.2.2⟩)
      _ 1 _ i' s' ⟨Nat.le_refl 1, by omega, Nat.le_refl _, fun q hq hq' => by
        simp only at hq'; omega⟩ hfl
    obtain ⟨⟨_, hi9, hle, hall⟩, hexit⟩ := hrule
    intro q hq hq' hqlen
    subst h
    unfold after_flag_loop at hq'
    by_cases h9 : i' = 9
    · simp only [h9, if_true] at hq'
      exact hall q hq (by omega)
    · simp only [h9, if_false] at hq'
      have : ¬ s'.index < argv.length := fun hlt => hexit ⟨hlt, by omega⟩
      exact hall q hq (by omega)

/-- An iteration on `-s` or `-c` followed by `m` tokens that the loop consumes (one of
the eight flag names first, then names among `rd_mode_flags[2..8]`) and then by a token
that is not a flag name ends at that token, after one line of output for each of the
`m` tokens. -/
theorem iteration_stops_at (argv : List CStr) (st st' : Loop) (m : Nat)
    (hopt : argv.getD st.index [] = "-s".toList ∨ argv.getD st.index [] = "-c".toList)
    (hp : st.index + m + 1 < argv.length)
    (ht : argv.getD (st.index + m + 1) [] ∉ rd_mode_flags.tail)
    (hfirst : 1 ≤ m → argv.getD (st.index + 1) [] ∈ rd_mode_flags.tail)
    (hnext : ∀ r, st.index + 1 < r → r < st.index + m + 1 →
      argv.getD r [] ∈ rd_mode_flags.drop 2)
    (h : iteration argv st = .ok st') :
    st'.index = st.index + m + 1 ∧ st'.out.length = st.out.length + m := by
  obtain ⟨body, hb, _, heq⟩ := iteration_flag_loop argv st hopt
  rw [heq] at h
  cases hfl : flag_loop body argv (9 * argv.length) 1 { st with index := st.index + 1 } with
  | error e => rw [hfl] at h; cases h
  | ok r =>
    obtain ⟨i', s'⟩ := r
    rw [hfl] at h
    simp only [Except.map, Except.ok.injEq] at h
    have hrule := flag_loop_rule body argv
      (fun i s => 1 ≤ i ∧ st.index + 1 ≤ s.index ∧ s.index ≤ st.index + m + 1 ∧
        s.out.length + (st.index + 1) = st.out.length + s.index ∧
        (s.index < st.index + m + 1 →
          ∃ j, i ≤ j ∧ j < 9 ∧ argv.getD s.index [] = rd_mode_flags.getD j []))
      (fun i s s1 hI hlt hi9 hm hbd => by
        obtain ⟨h1, hle, hlep, hout, _⟩ := hI
        have hidx := hb.index_eq hbd
        have hline := hb.one_line _ _ _ hbd
        have hne : s.index ≠ st.index + m + 1 := by
          intro hs
          apply ht
          rw [← hs, hm]
          exact (mem_flags_tail_iff _).2 ⟨i, h1, hi9, rfl⟩
        refine ⟨by omega, by simp only [hidx]; omega, by simp only [hidx]; omega,
          by simp only [hidx]; omega, ?_⟩
        simp only [hidx]
        intro hlt'
        obtain ⟨j, hj2, hj9, hj⟩ := (mem_flags_drop_iff _).1
          (hnext (s.index + 1) (by omega) hlt')
        exact ⟨j, hj2, hj9, hj⟩)
      (fun i s hI _ hi9 hm => by
        obtain ⟨h1, hle, hlep, hout, hj⟩ := hI
        refine ⟨by omega, hle, hlep, hout, ?_⟩
        intro hlt'
        obtain ⟨j, hij, hj9, hj'⟩ := hj hlt'
        have : j ≠ i := fun hji => hm (hji ▸ hj')
        exact ⟨j, by omega, hj9, hj'⟩)
      _ 1 _ i' s' ⟨Nat.le_refl 1, Nat.le_refl _, by simp only; omega, rfl,
        fun hlt' => by
          simp only at hlt' ⊢
          obtain ⟨j, hj1, hj9, hj⟩ := (mem_flags_tail_iff _).1 (hfirst (by omega))
          exact ⟨j, hj1, hj9, hj⟩⟩ hfl
    obtain ⟨⟨_, hle, hlep, hout, hj⟩, hexit⟩ := hrule
    have hi9 : ¬ i' < 9 := fun hlt => hexit ⟨by omega, hlt⟩
    have hidx : s'.index = st.index + m + 1 := by
      by_contra hne
      obtain ⟨j, hij, hj9, _⟩ := hj (by omega)
      omega
    have h9 : i' = 9 := by
      by_contra hne
      have := flag_loop_rule body argv (fun i _ => i ≤ 9)
        (fun _ _ _ _ _ _ _ _ => by omega) (fun i _ hI _ hi _ => by omega)
        _ 1 _ i' s' (by omega) hfl
      omega
    subst h
    unfold after_flag_loop
    simp only [h9, if_true]
    omega

/-! ## One flag after `-s` or `-c` -/

/-- The flag loop on a flag name followed by the end of the arguments or by a token that
the loop does not consume. -/
theorem flag_loop_one {body : CStr → Loop → Except Fault Loop} (hb : Body body)
    (argv : List CStr) (st : Loop) (hargc : 2 ≤ argv.length) (hidx : st.index < argv.length)
    (hmem : argv.getD st.index [] ∈ rd_mode_flags.tail)
    (hstop : st.index + 1 < argv.length →
      argv.getD (st.index + 1) [] ∉ rd_mode_flags.drop 2) :
    flag_loop body argv (9 * argv.length) 1 st =
      (body (argv.getD st.index []) st).map fun s =>
        (if st.index + 1 < argv.length then 9 else 2, { s with index := st.index + 1 }) := by
  obtain ⟨j, hj1, hj9, hfj, hfirst⟩ := flag_index _ hmem
  have hscan := flag_loop_scan body argv st hidx j hj9 hfj (j - 1) 1
    (9 * argv.length - j) (by omega) (fun k hk hkj => hfirst k hk hkj)
  rw [show 9 * argv.length = 9 * argv.length - j + (j - 1) + 1 by omega, hscan, ← hfj]
  cases hbd : body (argv.getD st.index []) st with
  | error e => rfl
  | ok s1 =>
    have hi := hb.index_eq hbd
    simp only [Except.map]
    by_cases hnext : st.index + 1 < argv.length
    · simp only [hnext, if_true]
      have hnone := flag_loop_none body argv { s1 with index := s1.index + 1 }
        (by simp only [hi]; exact hnext) 7 2 (9 * argv.length - j - 8) (by omega)
        (fun k hk hk9 heq => by
          simp only [hi] at heq
          exact hstop hnext ((mem_flags_drop_iff _).2 ⟨k, hk, hk9, heq⟩))
      rw [show 9 * argv.length - j = 9 * argv.length - j - 8 + 7 + 1 by omega, hnone, hi]
    · simp only [hnext, if_false]
      rw [show 9 * argv.length - j = (9 * argv.length - j - 1) + 1 by omega,
        flag_loop_end _ _ _ _ _ (by simp only [hi]; exact hnext), hi]

/-- The iteration on `-s` or `-c` followed by one flag name and then by the end of the
arguments or by a token that the loop does not consume. -/
theorem iteration_one {body : CStr → Loop → Except Fault Loop} (hb : Body body)
    (argv : List CStr) (st : Loop)
    (heq : iteration argv st =
      ((flag_loop body argv (9 * argv.length) 1 { st with index := st.index + 1 }).map
        after_flag_loop).map fun st => { st with index := st.index + 1 })
    (hidx : st.index + 1 < argv.length)
    (hmem : argv.getD (st.index + 1) [] ∈ rd_mode_flags.tail)
    (hstop : st.index + 2 < argv.length →
      argv.getD (st.index + 2) [] ∉ rd_mode_flags.drop 2) :
    iteration argv st =
      (body (argv.getD (st.index + 1) []) { st with index := st.index + 1 }).map fun s =>
        { s with index := if st.index + 2 < argv.length then st.index + 2 else st.index + 3 } := by
  rw [heq, flag_loop_one hb argv { st with index := st.index + 1 } (by omega) hidx hmem hstop]
  cases body (argv.getD (st.index + 1) []) { st with index := st.index + 1 } with
  | error e => rfl
  | ok s1 =>
    simp only [Except.map, after_flag_loop]
    by_cases hnext : st.index + 2 < argv.length
    · simp only [show st.index + 1 + 1 < argv.length from hnext, hnext, if_true]
      rfl
    · simp only [show ¬ st.index + 1 + 1 < argv.length from hnext, hnext, if_false]
      simp

/-- Setting a flag leaves a string in which the flag is found. -/
theorem set_flag_found (f : CStr) (st st1 : Loop) (h : set_flag f st = .ok st1) :
    strstr st1.rd_mode_string f ≠ none := by
  unfold set_flag at h
  split at h
  · injection h with h
    subst h
    rw [Ne, strstr_eq_none_iff, not_not]
    exact ⟨st.rd_mode_string ++ ",".toList, [], by simp⟩
  · rename_i hs
    injection h with h
    subst h
    exact hs

/-- Setting a flag that is found changes only the output. -/
theorem set_flag_of_found (f : CStr) (st : Loop) (h : strstr st.rd_mode_string f ≠ none) :
    set_flag f st = .ok { st with out := st.out ++ [f ++ " was already set.\n".toList] } := by
  unfold set_flag
  rw [if_neg h]

/-! ## Set and clear on lists of tokens -/

theorem catalog_only_no_comma {ts : List CStr} (h : catalog_only ts) :
    ∀ t ∈ ts, ',' ∉ t := by
  intro t ht
  rcases h t ht with rfl | hc
  · simp
  · exact (catalog_ne_nil t hc).2

theorem tokens_join {ts : List CStr} (h : catalog_only ts) (hne : ts ≠ []) :
    tokens (join ts) = ts :=
  List.splitOn_intercalate ts ',' (catalog_only_no_comma h) hne

theorem strstr_join_catalog {ts : List CStr} (h : catalog_only ts) {f : CStr}
    (hf : f ∈ rd_mode_flags) : strstr (join ts) f = none ↔ f ∉ ts := by
  obtain ⟨hne, hc⟩ := catalog_ne_nil f hf
  rw [strstr_eq_none_iff]
  constructor
  · intro hn hmem
    exact hn (infix_join_of_mem ts hmem)
  · intro hn hin
    obtain ⟨t, ht, hft⟩ := infix_join hne hc ts hin
    rcases h t ht with rfl | hcat
    · exact hne (List.infix_nil.1 hft)
    · exact hn (catalog_no_substring f hf t hcat hft ▸ ht)

theorem join_snoc (ts : List CStr) (hne : ts ≠ []) (f : CStr) :
    join (ts ++ [f]) = join ts ++ ",".toList ++ f := by
  rw [join_append ts [f] hne (by simp), join_singleton]
  simp

/-- Setting a flag on a comma-joined list of tokens. -/
theorem set_flag_join {ts : List CStr} (h : catalog_only ts) (hne : ts ≠ []) {f : CStr}
    (hf : f ∈ rd_mode_flags.tail) (i : Nat) (out : List CStr) :
    set_flag f ⟨i, join ts, out⟩ =
      .ok (if f ∈ ts then ⟨i, join ts, out ++ [f ++ " was already set.\n".toList]⟩
        else ⟨i, join (ts ++ [f]), out ++ [f ++ " is now set.\n".toList]⟩) := by
  have hiff := strstr_join_catalog h (List.mem_of_mem_tail hf)
  unfold set_flag
  by_cases hmem : f ∈ ts
  · have : strstr (join ts) f ≠ none := fun hn => hiff.1 hn hmem
    simp only [this, hmem, if_true, if_false]
  · simp only [hiff.2 hmem, hmem, if_true, if_false, join_snoc ts hne f]

/-- Clearing a flag that is not among the tokens. -/
theorem clear_flag_absent {ts : List CStr} (h : catalog_only ts) {f : CStr}
    (hf : f ∈ rd_mode_flags.tail) (hmem : f ∉ ts) (i : Nat) (out : List CStr) :
    clear_flag f ⟨i, join ts, out⟩ =
      .ok ⟨i, join ts, out ++ [f ++ " was already cleared.\n".toList]⟩ := by
  unfold clear_flag
  simp only [(strstr_join_catalog h (List.mem_of_mem_tail hf)).2 hmem]

/-- Clearing a flag that is the last of the tokens and not among the others. -/
theorem clear_flag_last {ts : List CStr} (h : catalog_only ts) (hne : ts ≠ []) {f : CStr}
    (hf : f ∈ rd_mode_flags.tail) (hmem : f ∉ ts) (i : Nat) (out : List CStr) :
    clear_flag f ⟨i, join (ts ++ [f]), out⟩ =
      .ok ⟨i, join ts, out ++ [f ++ " is now cleared.\n".toList]⟩ := by
  have hcat : f ∈ rd_mode_flags := List.mem_of_mem_tail hf
  obtain ⟨hfne, hc⟩ := catalog_ne_nil f hcat
  have hno : ∀ t ∈ ts, ¬ f <:+: t := by
    intro t ht hft
    rcases h t ht with rfl | htcat
    · exact hfne (List.infix_nil.1 hft)
    · exact hmem (catalog_no_substring f hcat t htcat hft ▸ ht)
  rw [clear_flag_join f hfne hc ts [] hne hno, join_singleton, if_neg (by omega)]
  simp

/-- Clearing a flag that is among the tokens and is not the first of them: the `strcpy`
overlaps, or the first occurrence of the flag is removed. -/
theorem clear_flag_tokens {ts : List CStr} (h : catalog_only ts) {f : CStr}
    (hf : f ∈ rd_mode_flags.tail) (hmem : f ∈ ts) (hhead : ts.head? ≠ some f)
    (i : Nat) (out : List CStr) :
    clear_flag f ⟨i, join ts, out⟩ = .error Fault.overlap ∨
      clear_flag f ⟨i, join ts, out⟩ =
        .ok ⟨i, join (ts.erase f), out ++ [f ++ " is now cleared.\n".toList]⟩ := by
  have hcat : f ∈ rd_mode_flags := List.mem_of_mem_tail hf
  obtain ⟨hne, hc⟩ := catalog_ne_nil f hcat
  obtain ⟨pre, post, hpre, hts_eq, herase⟩ := List.exists_erase_eq hmem
  have hpre_ne : pre ≠ [] := by
    rintro rfl
    apply hhead
    rw [hts_eq]; rfl
  have hno : ∀ t ∈ pre, ¬ f <:+: t := by
    intro t ht hft
    rcases h t (by rw [hts_eq]; simp [ht]) with rfl | htcat
    · exact hne (List.infix_nil.1 hft)
    · rw [catalog_no_substring f hcat t htcat hft] at hpre
      exact hpre ht
  rw [herase, hts_eq, clear_flag_join f hne hc pre post hpre_ne hno]
  split
  · exact Or.inl rfl
  · exact Or.inr rfl

theorem catalog_only_erase {ts : List CStr} (h : catalog_only ts) (f : CStr) :
    catalog_only (ts.erase f) :=
  fun t ht => h t (List.mem_of_mem_erase ht)

theorem catalog_only_snoc {ts : List CStr} (h : catalog_only ts) {f : CStr}
    (hf : f ∈ rd_mode_flags.tail) : catalog_only (ts ++ [f]) := by
  intro t ht
  rcases List.mem_append.1 ht with ht | ht
  · exact h t ht
  · right
    rw [List.mem_singleton.1 ht]
    exact List.mem_of_mem_tail hf

/-! ## Set, clear, set -/

theorem tokens_ne_nil (cur : CStr) : tokens cur ≠ [] :=
  List.splitOnP_ne_nil _ _

theorem erase_ne_nil {ts : List CStr} {a : CStr} (hmem : a ∈ ts) (hhead : ts.head? ≠ some a) :
    ts.erase a ≠ [] := by
  cases ts with
  | nil => simp at hmem
  | cons h tl =>
    have hne : h ≠ a := fun he => hhead (by rw [he]; rfl)
    rw [List.erase_cons_tail (by simpa using hne)]
    simp

theorem filter_ne_erase (a : CStr) :
    ∀ ts : List CStr, (ts.erase a).filter (fun t => decide (t ≠ a)) =
      ts.filter (fun t => decide (t ≠ a))
  | [] => rfl
  | h :: tl => by
    by_cases hh : h = a
    · subst hh
      rw [List.erase_cons_head, List.filter_cons]
      simp
    · rw [List.erase_cons_tail (by simpa using hh), List.filter_cons, List.filter_cons,
        filter_ne_erase a tl]

/-- The comma-join of tokens that do not hold `a`, followed by `a`, holds `a` once. -/
theorem strstr_join_snoc {ts : List CStr} (h : catalog_only ts) (hne : ts ≠ []) {a : CStr}
    (ha : a ∈ rd_mode_flags) (hmem : a ∉ ts) :
    strstr (join (ts ++ [a])) a = some ((join ts).length + 1) ∧
      strstr ((join (ts ++ [a])).drop ((join ts).length + 1 + 1)) a = none := by
  obtain ⟨hane, hc⟩ := catalog_ne_nil a ha
  have hno : ∀ t ∈ ts, ¬ a <:+: t := by
    intro t ht hat
    rcases h t ht with rfl | htcat
    · exact hane (List.infix_nil.1 hat)
    · exact hmem (catalog_no_substring a ha t htcat hat ▸ ht)
  refine ⟨strstr_join a hane hc ts [] hne hno, ?_⟩
  rw [join_snoc ts hne a, strstr_eq_none_iff]
  have hd : List.drop ((join ts).length + 1 + 1) (join ts ++ ",".toList ++ a) = a.drop 1 := by
    rw [show (join ts).length + 1 + 1 = (join ts ++ ",".toList).length + 1 by simp]
    exact List.drop_append 1
  rw [hd]
  intro hin
  have := hin.length_le
  have hlen : 0 < a.length := List.length_pos.2 hane
  simp at this
  omega

/-- The command loop on `-s a -c a -s a`, on the comma-join of tokens among which `a`
occurs at most once and not first: the `strcpy` of the clear overlaps, or the loop ends
with `a` moved to the end; it ends when `a` is not among the tokens. -/
theorem command_loop_set_clear_set (prog a : CStr) {ts : List CStr} (h : catalog_only ts)
    (hne : ts ≠ []) (ha : a ∈ rd_mode_flags.tail) (hcount : ts.count a ≤ 1)
    (hhead : ts.head? ≠ some a) :
    (a ∉ ts → ∃ out, command_loop
        [prog, "-s".toList, a, "-c".toList, a, "-s".toList, a] 7 ⟨1, join ts, []⟩ =
      .ok ⟨8, join (ts.erase a ++ [a]), out⟩) ∧
    (command_loop [prog, "-s".toList, a, "-c".toList, a, "-s".toList, a] 7 ⟨1, join ts, []⟩ =
        .error Fault.overlap ∨
      ∃ out, command_loop
          [prog, "-s".toList, a, "-c".toList, a, "-s".toList, a] 7 ⟨1, join ts, []⟩ =
        .ok ⟨8, join (ts.erase a ++ [a]), out⟩) := by
  have hs : ("-s".toList : CStr) ∉ rd_mode_flags.drop 2 := by decide
  have hc : ("-c".toList : CStr) ∉ rd_mode_flags.drop 2 := by decide
  have it1 := fun s o => iteration_one body_set_flag
    [prog, "-s".toList, a, "-c".toList, a, "-s".toList, a] ⟨1, s, o⟩
    (iteration_s _ _ rfl) (by simp) (by simpa using ha) (fun _ => by simpa using hc)
  have it2 := fun s o => iteration_one body_clear_flag
    [prog, "-s".toList, a, "-c".toList, a, "-s".toList, a] ⟨3, s, o⟩
    (iteration_c _ _ rfl) (by simp) (by simpa using ha) (fun _ => by simpa using hs)
  have it3 := fun s o => iteration_one body_set_flag
    [prog, "-s".toList, a, "-c".toList, a, "-s".toList, a] ⟨5, s, o⟩
    (iteration_s _ _ rfl) (by simp) (by simpa using ha) (fun h => by simp at h)
  simp only [List.length_cons, List.length_nil, List.getD_cons_succ, List.getD_cons_zero,
    show 1 + 2 < 0 + 1 + 1 + 1 + 1 + 1 + 1 + 1 by omega,
    show 3 + 2 < 0 + 1 + 1 + 1 + 1 + 1 + 1 + 1 by omega,
    show ¬ 5 + 2 < 0 + 1 + 1 + 1 + 1 + 1 + 1 + 1 by omega, if_true, if_false] at it1 it2 it3
  -- the three steps on lists of tokens
  obtain ⟨ts1, o1, hstep1, hcat1, hmem1, hhead1, herase1, hlast⟩ :
      ∃ ts1 o1, set_flag a ⟨1 + 1, join ts, []⟩ = .ok ⟨1 + 1, join ts1, o1⟩ ∧
        catalog_only ts1 ∧ a ∈ ts1 ∧ ts1.head? ≠ some a ∧ ts1.erase a = ts.erase a ∧
        (a ∉ ts → ts1 = ts ++ [a]) := by
    rw [set_flag_join h hne ha]
    by_cases hmem : a ∈ ts
    · exact ⟨ts, [] ++ [a ++ " was already set.\n".toList], by simp only [hmem, if_true], h,
        hmem, hhead, rfl, fun hn => absurd hmem hn⟩
    · refine ⟨ts ++ [a], [] ++ [a ++ " is now set.\n".toList], by simp only [hmem, if_false],
        catalog_only_snoc h ha, by simp, ?_, ?_, fun _ => rfl⟩
      · rw [List.head?_append_of_ne_nil _ hne]; exact hhead
      · rw [List.erase_append_right _ hmem, List.erase_of_not_mem hmem]
        simp
  have hcat2 : catalog_only (ts.erase a) := catalog_only_erase h a
  have hne2 : ts.erase a ≠ [] := by
    rw [← herase1]; exact erase_ne_nil hmem1 hhead1
  have hmem2 : a ∉ ts.erase a := by
    rw [← List.count_eq_zero, List.count_erase_self]
    omega
  have hstep2 := clear_flag_tokens hcat1 ha hmem1 hhead1 (3 + 1) o1
  rw [herase1] at hstep2
  have hstep3 := set_flag_join hcat2 hne2 ha (5 + 1)
    (o1 ++ [a ++ " is now cleared.\n".toList])
  simp only [hmem2, if_false] at hstep3
  -- the run when the clear ends
  have hok : clear_flag a ⟨3 + 1, join ts1, o1⟩ =
        .ok ⟨3 + 1, join (ts.erase a), o1 ++ [a ++ " is now cleared.\n".toList]⟩ →
      ∃ out, command_loop
          [prog, "-s".toList, a, "-c".toList, a, "-s".toList, a] 7 ⟨1, join ts, []⟩ =
        .ok ⟨8, join (ts.erase a ++ [a]), out⟩ := by
    intro hclear
    refine ⟨o1 ++ [a ++ " is now cleared.\n".toList] ++ [a ++ " is now set.\n".toList], ?_⟩
    rw [show (7 : Nat) = 3 + 1 + 1 + 1 + 1 from rfl, command_loop_succ, if_pos (by simp), it1,
      hstep1]
    simp only [Except.map]
    rw [command_loop_succ, if_pos (by simp), it2, hclear]
    simp only [Except.map]
    rw [command_loop_succ, if_pos (by simp), it3, hstep3]
    simp only [Except.map]
    rw [command_loop_succ, if_neg (by simp)]
  -- the run when the clear overlaps
  have herr : clear_flag a ⟨3 + 1, join ts1, o1⟩ = .error Fault.overlap →
      command_loop [prog, "-s".toList, a, "-c".toList, a, "-s".toList, a] 7 ⟨1, join ts, []⟩ =
        .error Fault.overlap := by
    intro hclear
    rw [show (7 : Nat) = 3 + 1 + 1 + 1 + 1 from rfl, command_loop_succ, if_pos (by simp), it1,
      hstep1]
    simp only [Except.map]
    rw [command_loop_succ, if_pos (by simp), it2, hclear]
    simp only [Except.map]
  refine ⟨fun hmem => hok ?_, ?_⟩
  · rw [hlast hmem, clear_flag_last h hne ha hmem, List.erase_of_not_mem hmem]
  · rcases hstep2 with h2 | h2
    · exact Or.inl (herr h2)
    · exact Or.inr (hok h2)

/-! ## Well-formed live strings -/

theorem join_cons_groups (P : CStr) (fs : List CStr) :
    join (P :: fs) = P ++ (fs.map fun f => ',' :: f).flatten := by
  induction fs generalizing P with
  | nil => simp [join_singleton]
  | cons f fs ih => rw [join_cons_cons, ih f]; simp

/-- A well-formed live string is the comma-join of "" or "master" and distinct settable
flags. -/
theorem well_formed_iff (s : CStr) :
    well_formed s ↔ ∃ (P : CStr) (fs : List CStr), (P = [] ∨ P = "master".toList) ∧
      (∀ f ∈ fs, f ∈ rd_mode_flags.tail) ∧ fs.Nodup ∧ s = join (P :: fs) := by
  constructor
  · rintro ⟨P, fs, hP, hfs, hnd, rfl⟩
    exact ⟨P, fs, hP, hfs, hnd, (join_cons_groups P fs).symm⟩
  · rintro ⟨P, fs, hP, hfs, hnd, rfl⟩
    exact ⟨P, fs, hP, hfs, hnd, join_cons_groups P fs⟩

theorem well_formed_tokens {P : CStr} {fs : List CStr} (hP : P = [] ∨ P = "master".toList)
    (hfs : ∀ f ∈ fs, f ∈ rd_mode_flags.tail) : catalog_only (P :: fs) := by
  intro t ht
  rcases List.mem_cons.1 ht with rfl | ht
  · rcases hP with rfl | rfl
    · exact Or.inl rfl
    · exact Or.inr (by decide)
  · exact Or.inr (List.mem_of_mem_tail (hfs t ht))

theorem flag_ne_first {P f : CStr} (hP : P = [] ∨ P = "master".toList)
    (hf : f ∈ rd_mode_flags.tail) : P ≠ f := by
  rintro rfl
  rcases hP with rfl | rfl
  · exact absurd hf (by decide)
  · exact absurd hf (by decide)

/-- Setting a settable flag keeps a live string well formed. -/
theorem well_formed_set {s f : CStr} (hs : well_formed s) (hf : f ∈ rd_mode_flags.tail)
    (i : Nat) (o : List CStr) :
    ∃ st', set_flag f ⟨i, s, o⟩ = .ok st' ∧ well_formed st'.rd_mode_string := by
  obtain ⟨P, fs, hP, hfs, hnd, rfl⟩ := (well_formed_iff _).1 hs
  have hcat := well_formed_tokens hP hfs
  rw [set_flag_join hcat (by simp) hf]
  by_cases hmem : f ∈ P :: fs
  · rw [if_pos hmem]
    exact ⟨_, rfl, (well_formed_iff _).2 ⟨P, fs, hP, hfs, hnd, rfl⟩⟩
  · rw [if_neg hmem]
    refine ⟨_, rfl, (well_formed_iff _).2 ⟨P, fs ++ [f], hP, ?_, ?_, rfl⟩⟩
    · intro g hg
      rcases List.mem_append.1 hg with hg | hg
      · exact hfs g hg
      · rw [List.mem_singleton.1 hg]; exact hf
    · refine List.Nodup.append hnd (by simp) ?_
      intro g hg hg'
      rw [List.mem_singleton.1 hg'] at hg
      exact hmem (List.mem_cons_of_mem _ hg)

/-- Clearing a settable flag in a well-formed live string does not underflow: the
`strcpy` overlaps, or the string is well formed afterwards. -/
theorem well_formed_clear {s f : CStr} (hs : well_formed s) (hf : f ∈ rd_mode_flags.tail)
    (i : Nat) (o : List CStr) :
    clear_flag f ⟨i, s, o⟩ = .error Fault.overlap ∨
      ∃ st', clear_flag f ⟨i, s, o⟩ = .ok st' ∧ well_formed st'.rd_mode_string := by
  obtain ⟨P, fs, hP, hfs, hnd, rfl⟩ := (well_formed_iff _).1 hs
  have hcat := well_formed_tokens hP hfs
  have hPf := flag_ne_first hP hf
  by_cases hmem : f ∈ P :: fs
  · have hhead : (P :: fs).head? ≠ some f := by
      simpa using hPf
    rcases clear_flag_tokens hcat hf hmem hhead i o with h | h
    · exact Or.inl h
    · rw [List.erase_cons_tail (by simpa using hPf)] at h
      exact Or.inr ⟨_, h, (well_formed_iff _).2 ⟨P, fs.erase f, hP,
        fun g hg => hfs g (List.mem_of_mem_erase hg), hnd.erase f, rfl⟩⟩
  · rw [clear_flag_absent hcat hf hmem]
    exact Or.inr ⟨_, rfl, (well_formed_iff _).2 ⟨P, fs, hP, hfs, hnd, rfl⟩⟩

/-- In a well-formed live string a settable flag is never found at offset 0. -/
theorem well_formed_offset {s f : CStr} (hs : well_formed s) (hf : f ∈ rd_mode_flags.tail)
    {k : Nat} (hk : strstr s f = some k) : 0 < k := by
  obtain ⟨P, fs, hP, hfs, hnd, rfl⟩ := (well_formed_iff _).1 hs
  have hcat := well_formed_tokens hP hfs
  have hfcat : f ∈ rd_mode_flags := List.mem_of_mem_tail hf
  obtain ⟨hne, hc⟩ := catalog_ne_nil f hfcat
  have hmem : f ∈ P :: fs := by
    by_contra hn
    rw [(strstr_join_catalog hcat hfcat).2 hn] at hk
    cases hk
  obtain ⟨pre, post, hpre, hts_eq, _⟩ := List.exists_erase_eq hmem
  have hpre_ne : pre ≠ [] := by
    rintro rfl
    simp only [List.nil_append, List.cons.injEq] at hts_eq
    exact flag_ne_first hP hf hts_eq.1
  have hno : ∀ t ∈ pre, ¬ f <:+: t := by
    intro t ht hft
    rcases hcat t (by rw [hts_eq]; simp [ht]) with rfl | htcat
    · exact hne (List.infix_nil.1 hft)
    · rw [catalog_no_substring f hfcat t htcat hft] at hpre
      exact hpre ht
  rw [hts_eq, strstr_join f hne hc pre post hpre_ne hno] at hk
  injection hk with hk
  omega

/-- The flag loop stops with the fault `e`, or ends with a property of the live string
kept, when on every settable flag its body stops with `e` or ends and keeps the
property. -/
theorem flag_loop_ok_rule {body : CStr → Loop → Except Fault Loop} (hb : Body body)
    (argv : List CStr) (J : CStr → Prop) (e : Fault)
    (hstep : ∀ f st, f ∈ rd_mode_flags.tail → J st.rd_mode_string →
      body f st = .error e ∨ ∃ st1, body f st = .ok st1 ∧ J st1.rd_mode_string) :
    ∀ (fuel i : Nat) (st : Loop), 1 ≤ i → i ≤ 9 →
      8 * (argv.length - st.index) + (9 - i) < fuel → J st.rd_mode_string →
      flag_loop body argv fuel i st = .error e ∨
        ∃ r, flag_loop body argv fuel i st = .ok r ∧ J r.2.rd_mode_string
  | 0, i, st, _, _, h, _ => by omega
  | fuel + 1, i, st, h1, h9, h, hJ => by
    rw [flag_loop_succ]
    by_cases hc : st.index < argv.length ∧ i < 9
    · simp only [hc, and_self, if_true]
      by_cases hm : argv.getD st.index [] = rd_mode_flags.getD i []
      · simp only [hm, if_true]
        rcases hstep (rd_mode_flags.getD i []) st
          ((mem_flags_tail_iff _).2 ⟨i, h1, hc.2, rfl⟩) hJ with hbd | ⟨st1, hbd, hJ1⟩
        · rw [hbd]
          exact Or.inl rfl
        · have hidx := hb.index_eq hbd
          rw [hbd]
          exact flag_loop_ok_rule hb argv J e hstep fuel 2 _ (by omega) (by omega)
            (by simp only [hidx]; omega) hJ1
      · simp only [hm, if_false]
        exact flag_loop_ok_rule hb argv J e hstep fuel (i + 1) st (by omega) (by omega)
          (by omega) hJ
    · simp only [hc, if_false]
      exact Or.inr ⟨(i, st), rfl, hJ⟩

/-- The command loop stops with the fault `e`, or ends with a property of the state kept,
when every iteration stops with `e` or ends and keeps the property. -/
theorem command_loop_ok_rule (argv : List CStr) (I : Loop → Prop) (e : Fault)
    (hstep : ∀ st, I st → st.index < argv.length →
      iteration argv st = .error e ∨ ∃ st', iteration argv st = .ok st' ∧ I st') :
    ∀ (fuel : Nat) (st : Loop), argv.length - st.index < fuel → I st →
      command_loop argv fuel st = .error e ∨
        ∃ st', command_loop argv fuel st = .ok st' ∧ I st'
  | 0, st, h, _ => by omega
  | fuel + 1, st, h, hI => by
    rw [command_loop_succ]
    by_cases hc : st.index < argv.length
    · simp only [hc, if_true]
      rcases hstep st hI hc with hit | ⟨st1, hit, hI1⟩
      · rw [hit]
        exact Or.inl rfl
      · have := iteration_progress argv st st1 hit
        rw [hit]
        exact command_loop_ok_rule argv I e hstep fuel st1 (by omega) hI1
    · simp only [hc, if_false]
      exact Or.inr ⟨st, rfl, hI⟩

/-- An iteration on a token other than `-w` and `-c` ends and keeps the live string well
formed; one on `-c` stops at an overlapping `strcpy`, or ends and keeps the live string
well formed. -/
theorem iteration_well_formed (argv : List CStr) (st : Loop) (hidx : st.index < argv.length)
    (hw : argv.getD st.index [] ≠ "-w".toList) (hs : well_formed st.rd_mode_string) :
    (argv.getD st.index [] = "-c".toList ∧ iteration argv st = .error Fault.overlap) ∨
      ∃ st', iteration argv st = .ok st' ∧ well_formed st'.rd_mode_string := by
  have hflag : ∀ body, Body body →
      (∀ f st, f ∈ rd_mode_flags.tail → well_formed st.rd_mode_string →
        body f st = .error Fault.overlap ∨
          ∃ st1, body f st = .ok st1 ∧ well_formed st1.rd_mode_string) →
      ((flag_loop body argv (9 * argv.length) 1 { st with index := st.index + 1 }).map
        after_flag_loop).map (fun st => { st with index := st.index + 1 }) =
          .error Fault.overlap ∨
      ∃ st', ((flag_loop body argv (9 * argv.length) 1 { st with index := st.index + 1 }).map
        after_flag_loop).map (fun st => { st with index := st.index + 1 }) = .ok st' ∧
        well_formed st'.rd_mode_string := by
    intro body hb hstep
    rcases flag_loop_ok_rule hb argv well_formed Fault.overlap hstep (9 * argv.length) 1
      { st with index := st.index + 1 } (by omega) (by omega) (by simp only; omega) hs with
      hr | ⟨r, hr, hJ⟩
    · rw [hr]
      exact Or.inl rfl
    · rw [hr]
      refine Or.inr ⟨_, rfl, ?_⟩
      unfold after_flag_loop
      split <;> exact hJ
  rcases iteration_cases argv st with hc | hc | hc | hc | hc | hc | hc | hc | hc | hc
  · exact Or.inr ⟨_, iteration_h argv st hc, hs⟩
  · exact Or.inr ⟨_, iteration_l argv st hc, hs⟩
  · exact Or.inr ⟨_, iteration_p argv st hc, hs⟩
  · exact Or.inr ⟨_, iteration_e argv st hc, "master".toList, [], Or.inr rfl, by simp,
      by simp, by simp⟩
  · exact Or.inr ⟨_, iteration_d argv st hc, [], [], Or.inl rfl, by simp, by simp, by simp⟩
  · exact Or.inr ⟨_, iteration_q argv st hc, hs⟩
  · obtain ⟨st', hit⟩ := iteration_s_ok argv st hidx hc
    rw [iteration_s argv st hc] at hit
    rcases hflag set_flag body_set_flag
      (fun f st hf hw => Or.inr (well_formed_set hw hf _ _)) with h | h
    · rw [hit] at h; cases h
    · rw [iteration_s argv st hc]
      exact Or.inr h
  · rw [iteration_c argv st hc]
    rcases hflag clear_flag body_clear_flag
      (fun f st hf hw => well_formed_clear hw hf _ _) with h | h
    · exact Or.inl ⟨hc, h⟩
    · exact Or.inr h
  · exact absurd hc hw
  · exact Or.inr ⟨_, iteration_other argv st hc, hs⟩

theorem getD_mem_tail (argv : List CStr) (k : Nat) (h1 : 1 ≤ k) (hk : k < argv.length) :
    argv.getD k [] ∈ argv.tail := by
  cases argv with
  | nil => simp at hk
  | cons a l =>
    obtain ⟨j, rfl⟩ : ∃ j, k = j + 1 := ⟨k - 1, by omega⟩
    have hj : j < l.length := by simpa using hk
    rw [List.getD_cons_succ, List.getD_eq_getElem _ _ hj]
    exact List.getElem_mem hj

/-! ## The claims -/

/-- C1: when `main` gets to `cal_init` (the bootstrap did not abort), `cal_init` and
`cal_read_block` succeed and the command loop ends in state `st`, then `cal_write_block`
is called if and only if the final live string differs from the baseline, and then it
is called once, with the final live string and its `strlen`. -/
theorem write_back_iff_changed (w : World) (argv : List CStr) (st : Loop)
    (hreach : Event.cal_init ∈ (main w argv).events)
    (hinit : 0 ≤ w.cal_init) (hread : w.cal_read_block ≠ CalRead.error)
    (hloop : command_loop argv argv.length ⟨1, (load w.cal_read_block).1, []⟩ = .ok st) :
    cal_writes (main w argv).events =
      if st.rd_mode_string ≠ (load w.cal_read_block).1 then
        [(st.rd_mode_string, st.rd_mode_string.length)]
      else [] := by
  rcases Shape.main w argv with ⟨pre, ns, nd, hmain, hpre⟩ | hno
  · rw [hmain]
    simp only [Run.after, cal_writes_append, cal_writes_of_not_cal pre hpre, List.nil_append]
    exact cal_writes_main_cal w argv ns nd st hinit hread hloop
  · exact absurd (hno _ hreach) (by simp [Event.is_cal])

set_option maxRecDepth 100000 in
/-- Witness of C1: with an empty stored value and the arguments `-e`, the write is
made with "master". -/
theorem write_back_iff_changed_witness :
    cal_writes (main (World.running CalRead.not_found) ["rdmod".toList, "-e".toList]).events =
      [("master".toList, 6)] := by
  have h := write_back_iff_changed (World.running CalRead.not_found)
    ["rdmod".toList, "-e".toList] ⟨2, "master".toList, ["R&D Mode enabled.\n".toList]⟩
    (by decide) (by decide) (by decide) (by decide)
  rw [h]
  decide

set_option maxRecDepth 100000 in
/-- C2 (defect of the code): after a matched flag the loop resets `i` to 1 and the `++i`
of the `for` makes it 2, so "no-omap-wd" (`rd_mode_flags[1]`) is never recognised in
second or later position. With an empty live string, `-s no-charging no-omap-wd` sets
only "no-charging", and "no-omap-wd" is then skipped as an unknown leading token, while
`-s no-omap-wd no-charging` sets both; `-c` behaves the same way. -/
theorem flag_run_stops_at_no_omap_wd :
    command_loop ["rdmod".toList, "-s".toList, "no-charging".toList, "no-omap-wd".toList] 4
        ⟨1, [], []⟩ =
      .ok ⟨4, ",no-charging".toList, ["no-charging is now set.\n".toList]⟩ ∧
    command_loop ["rdmod".toList, "-s".toList, "no-omap-wd".toList, "no-charging".toList] 4
        ⟨1, [], []⟩ =
      .ok ⟨5, ",no-omap-wd,no-charging".toList,
        ["no-omap-wd is now set.\n".toList, "no-charging is now set.\n".toList]⟩ ∧
    command_loop ["rdmod".toList, "-c".toList, "no-charging".toList, "no-omap-wd".toList] 4
        ⟨1, "master,no-omap-wd,no-charging".toList, []⟩ =
      .ok ⟨4, "master,no-omap-wd".toList, ["no-charging is now cleared.\n".toList]⟩ ∧
    cal_writes (main (World.running CalRead.not_found)
        ["rdmod".toList, "-s".toList, "no-charging".toList, "no-omap-wd".toList]).events =
      [(",no-charging".toList, 12)] := by
  decide

/-- C3: on a live string whose tokens are empty or catalog names, setting a settable flag
`f` appends "," and `f` and reports "is now set" when `f` is not a token, and leaves the
string as it is and reports "was already set" when it is one; this is what the command
loop does on the arguments `-s f`. The stored value "master" with
`-s no-charging sti-console` gives "master,no-charging,sti-console". -/
theorem set_appends_when_absent :
    (∀ (cur f : CStr) (i : Nat) (out : List CStr),
      (∀ t ∈ tokens cur, t = [] ∨ t ∈ rd_mode_flags) → f ∈ rd_mode_flags.tail →
      set_flag f ⟨i, cur, out⟩ =
        .ok (if f ∈ tokens cur then ⟨i, cur, out ++ [f ++ " was already set.\n".toList]⟩
          else ⟨i, cur ++ ",".toList ++ f, out ++ [f ++ " is now set.\n".toList]⟩)) ∧
    (∀ (prog cur f : CStr), (∀ t ∈ tokens cur, t = [] ∨ t ∈ rd_mode_flags) →
      f ∈ rd_mode_flags.tail →
      command_loop [prog, "-s".toList, f] [prog, "-s".toList, f].length ⟨1, cur, []⟩ =
        .ok (if f ∈ tokens cur then ⟨4, cur, [f ++ " was already set.\n".toList]⟩
          else ⟨4, cur ++ ",".toList ++ f, [f ++ " is now set.\n".toList]⟩)) ∧
    command_loop ["rdmod".toList, "-s".toList, "no-charging".toList, "sti-console".toList] 4
        ⟨1, "master".toList, []⟩ =
      .ok ⟨5, "master,no-charging,sti-console".toList,
        ["no-charging is now set.\n".toList, "sti-console is now set.\n".toList]⟩ := by
  refine ⟨fun cur f i out hcur hf => set_flag_catalog cur f i out hcur hf, ?_, by decide⟩
  intro prog cur f hcur hf
  rw [command_loop_s_single prog f hf, set_flag_catalog cur f 2 [] hcur hf]
  by_cases hmem : f ∈ tokens cur <;> simp [hmem, Except.map]

set_option maxRecDepth 100000 in
/-- Witness of C3: "no-charging" set on the live string "master". -/
theorem set_appends_when_absent_witness :
    command_loop ["rdmod".toList, "-s".toList, "no-charging".toList] 3
        ⟨1, "master".toList, []⟩ =
      .ok ⟨4, "master,no-charging".toList, ["no-charging is now set.\n".toList]⟩ := by
  have h := set_appends_when_absent.2.1 "rdmod".toList "master".toList "no-charging".toList
    (by decide) (by decide)
  rw [show ["rdmod".toList, "-s".toList, "no-charging".toList].length = 3 from rfl] at h
  rw [h]
  decide

set_option maxRecDepth 100000 in
/-- C4 (defect of the code): clearing the flag that starts the live string makes
`strcpy` write to `substring - 1` with `substring == rd_mode_string`, one byte before the
buffer: the run of `main` with the stored value "no-charging" (or
"no-charging,sti-console") and the arguments `-c no-charging` is undefined. -/
theorem clear_first_token_underflows :
    (main (World.running (CalRead.ok "no-charging".toList))
        ["rdmod".toList, "-c".toList, "no-charging".toList]).ret = .error Fault.underflow ∧
    (main (World.running (CalRead.ok "no-charging,sti-console".toList))
        ["rdmod".toList, "-c".toList, "no-charging".toList]).ret = .error Fault.underflow ∧
    strstr "no-charging,sti-console".toList "no-charging".toList = some 0 := by
  decide

set_option maxRecDepth 100000 in
/-- C5 (defect of the code): clearing a flag after which the live string has more
characters than the flag is long makes `strcpy(substring - 1, substring + strlen(flag))`
copy between overlapping objects, which is undefined. So are the run of `main` with the
stored value "master,no-ext-wd,no-lifeguard-reset" and the arguments `-c no-ext-wd`, the
clear of "sti-console" in "master,sti-console,no-charging" and the clear of "no-omap-wd"
in the string of all nine names. The stored value "master,no-charging" with
`-c no-charging` gives "master". In general, for a settable flag `f` that comes after the
catalog names `pre` (at least one, none of them `f`) and before the tokens `post`, the
command loop on `-c f` stops at the overlap when the part of the string from `f` on is
longer than twice `f` (more characters follow `f` than `f` has), and otherwise ends with
the comma-join of `pre` and `post`. -/
theorem clear_middle_token_overlaps :
    (main (World.running (CalRead.ok "master,no-ext-wd,no-lifeguard-reset".toList))
        ["rdmod".toList, "-c".toList, "no-ext-wd".toList]).ret = .error Fault.overlap ∧
    command_loop ["rdmod".toList, "-c".toList, "sti-console".toList] 3
        ⟨1, "master,sti-console,no-charging".toList, []⟩ = .error Fault.overlap ∧
    clear_flag "no-omap-wd".toList
        ⟨2, ("master,no-omap-wd,no-ext-wd,no-lifeguard-reset,serial-console," ++
          "no-usb-timeout,sti-console,no-charging,force-power-key").toList, []⟩ =
      .error Fault.overlap ∧
    command_loop ["rdmod".toList, "-c".toList, "no-charging".toList] 3
        ⟨1, "master,no-charging".toList, []⟩ =
      .ok ⟨4, "master".toList, ["no-charging is now cleared.\n".toList]⟩ ∧
    (∀ (prog f : CStr) (pre post : List CStr), pre ≠ [] → (∀ t ∈ pre, t ∈ rd_mode_flags) →
      f ∈ rd_mode_flags.tail → f ∉ pre →
      command_loop [prog, "-c".toList, f] 3 ⟨1, join (pre ++ f :: post), []⟩ =
        if 2 * f.length < (join (f :: post)).length then .error Fault.overlap
        else .ok ⟨4, join (pre ++ post), [f ++ " is now cleared.\n".toList]⟩) := by
  refine ⟨by decide, by decide, by decide, by decide, ?_⟩
  intro prog f pre post hpre hts hf hmem
  have h := command_loop_c_single prog f hf (join (pre ++ f :: post)) []
  rw [show [prog, "-c".toList, f].length = 3 from rfl] at h
  rw [h, clear_flag_catalog f pre post 2 [] hpre hts hf hmem]
  split <;> rfl

set_option maxRecDepth 100000 in
/-- Counterexample to C6: in the live string "xno-chargingy" (as `-w` can write it) the
only token is "xno-chargingy", yet the test `strstr(rd_mode_string, "no-charging")`
succeeds and `-q` reports "no-charging" as on. -/
theorem membership_test_ignores_delimiters :
    "no-charging".toList ∉ tokens "xno-chargingy".toList ∧
    (strstr "xno-chargingy".toList "no-charging".toList).isSome = true ∧
    "no-charging flag is on.\n".toList ∈ query_lines "xno-chargingy".toList ∧
    (command_loop ["rdmod".toList, "-w".toList, "xno-chargingy".toList, "-s".toList,
        "no-charging".toList] 5 ⟨1, [], []⟩).map (·.rd_mode_string) =
      .ok "xno-chargingy".toList := by
  decide

/-- C6, amended: the test `strstr(rd_mode_string, f)` succeeds if and only if `f`
occurs in the live string as a contiguous substring; so it succeeds whenever `f` is one
of the comma-separated tokens, and when every token of the live string is empty or a
catalog name and `f` is a catalog name, it succeeds if and only if `f` is a token. -/
theorem membership_test_is_substring (cur f : CStr) :
    ((strstr cur f).isSome ↔ f <:+: cur) ∧
    (f ∈ tokens cur → (strstr cur f).isSome) ∧
    ((∀ t ∈ tokens cur, t = [] ∨ t ∈ rd_mode_flags) → f ∈ rd_mode_flags →
      ((strstr cur f).isSome ↔ f ∈ tokens cur)) := by
  refine ⟨strstr_isSome_iff cur f, ?_, fun hcur hf => strstr_catalog cur f hcur hf⟩
  intro h
  rw [strstr_isSome_iff]
  have := infix_join_of_mem _ h
  rwa [join_tokens] at this

set_option maxRecDepth 100000 in
/-- Witness of the amended C6: "no-charging" in "master,no-charging". -/
theorem membership_test_is_substring_witness :
    (strstr "master,no-charging".toList "no-charging".toList).isSome ↔
      "no-charging".toList ∈ tokens "master,no-charging".toList :=
  (membership_test_is_substring "master,no-charging".toList "no-charging".toList).2.2
    (by decide) (by decide)

/-- C7: on a live string whose tokens are empty or catalog names, `-q` leaves the string
as it is and prints eight lines, one for each of `rd_mode_flags[1..8]` in this order,
"on" if and only if the flag is one of the tokens; no line is about "master". With the
stored value "master" all eight flags are reported off. -/
theorem query_reports_tokens :
    (∀ (prog cur : CStr), (∀ t ∈ tokens cur, t = [] ∨ t ∈ rd_mode_flags) →
      command_loop [prog, "-q".toList] [prog, "-q".toList].length ⟨1, cur, []⟩ =
        .ok ⟨2, cur, rd_mode_flags.tail.map fun f =>
          if f ∈ tokens cur then f ++ " flag is on.\n".toList
          else f ++ " flag is off.\n".toList⟩) ∧
    rd_mode_flags.tail.length = 8 ∧
    "master".toList ∉ rd_mode_flags.tail ∧
    command_loop ["rdmod".toList, "-q".toList] 2 ⟨1, "master".toList, []⟩ =
      .ok ⟨2, "master".toList,
        ["no-omap-wd flag is off.\n".toList, "no-ext-wd flag is off.\n".toList,
         "no-lifeguard-reset flag is off.\n".toList, "serial-console flag is off.\n".toList,
         "no-usb-timeout flag is off.\n".toList, "sti-console flag is off.\n".toList,
         "no-charging flag is off.\n".toList, "force-power-key flag is off.\n".toList]⟩ := by
  refine ⟨?_, by decide, by decide, by decide⟩
  intro prog cur hcur
  have hlen : [prog, "-q".toList].length = 1 + 1 := rfl
  have h1 : (⟨1, cur, []⟩ : Loop).index < [prog, "-q".toList].length := by simp
  rw [hlen, command_loop, if_pos h1, iteration_q [prog, "-q".toList] ⟨1, cur, []⟩ rfl]
  simp only
  rw [command_loop, if_neg (by simp), query_lines_eq]
  have hmap : (rd_mode_flags.tail.map fun f =>
        if (strstr cur f).isSome then f ++ " flag is on.\n".toList
        else f ++ " flag is off.\n".toList) =
      rd_mode_flags.tail.map fun f =>
        if f ∈ tokens cur then f ++ " flag is on.\n".toList
        else f ++ " flag is off.\n".toList := by
    apply List.map_congr_left
    intro f hf
    have hiff := strstr_catalog cur f hcur (List.mem_of_mem_tail hf)
    by_cases hm : f ∈ tokens cur
    · simp [hm, hiff.2 hm]
    · have : ¬ (strstr cur f).isSome = true := fun h => hm (hiff.1 h)
      simp [hm, this]
  rw [hmap]
  simp only [List.nil_append]

set_option maxRecDepth 100000 in
/-- Witness of C7: the query of "master,sti-console". -/
theorem query_reports_tokens_witness :
    command_loop ["rdmod".toList, "-q".toList] 2 ⟨1, "master,sti-console".toList, []⟩ =
      .ok ⟨2, "master,sti-console".toList,
        ["no-omap-wd flag is off.\n".toList, "no-ext-wd flag is off.\n".toList,
         "no-lifeguard-reset flag is off.\n".toList, "serial-console flag is off.\n".toList,
         "no-usb-timeout flag is off.\n".toList, "sti-console flag is on.\n".toList,
         "no-charging flag is off.\n".toList, "force-power-key flag is off.\n".toList]⟩ := by
  have h := query_reports_tokens.1 "rdmod".toList "master,sti-console".toList (by decide)
  rw [show ["rdmod".toList, "-q".toList].length = 2 from rfl] at h
  rw [h]
  decide

set_option maxRecDepth 100000 in
/-- C8 (defect of the code): `tempint` is declared again on line 132, so the codes
assigned before `goto cleanup_files` are lost and `main` returns the outer `tempint`,
which is 0: a failed `mkdir`, a failed `mknod` and a failed mount of `/dev/shm` all make
`main` return `RDMOD_GOOD`. Only the failed mount of `/dev` returns its code, 8. -/
theorem bootstrap_failures_return_good :
    (main { World.early CalRead.not_found with mkdir_devshm := -1 }
        ["rdmod".toList, "-q".toList]).ret = .ok RDMOD_GOOD ∧
    (main { World.early CalRead.not_found with mknod_devmtd := -1 }
        ["rdmod".toList, "-q".toList]).ret = .ok RDMOD_GOOD ∧
    (main { World.early CalRead.not_found with mount_devshm := -1 }
        ["rdmod".toList, "-q".toList]).ret = .ok RDMOD_GOOD ∧
    (main { World.early CalRead.not_found with mount_dev := -1 }
        ["rdmod".toList, "-q".toList]).ret = .ok RDMOD_DEV_MOUNT_E := by
  decide

set_option maxRecDepth 100000 in
/-- C9 (defect of the code): when `cal_init` fails, or `cal_read_block` fails with an
error other than not-found, `main` returns at once (lines 180 and 192) and the mounts
of the bootstrap stay: in early boot both `/dev` and `/dev/shm` are mounted and no
`umount` is called. When `cal_write_block` fails, and on success, both are unmounted. -/
theorem early_returns_skip_umount :
    (mounted (main { World.early CalRead.not_found with cal_init := -1 }
        ["rdmod".toList, "-q".toList]).events = [dev, devshm] ∧
      umounted (main { World.early CalRead.not_found with cal_init := -1 }
        ["rdmod".toList, "-q".toList]).events = [] ∧
      (main { World.early CalRead.not_found with cal_init := -1 }
        ["rdmod".toList, "-q".toList]).ret = .ok RDMOD_CAL_INIT_E) ∧
    (mounted (main (World.early CalRead.error) ["rdmod".toList, "-q".toList]).events =
        [dev, devshm] ∧
      umounted (main (World.early CalRead.error) ["rdmod".toList, "-q".toList]).events = [] ∧
      (main (World.early CalRead.error) ["rdmod".toList, "-q".toList]).ret =
        .ok RDMOD_CAL_READ_E) ∧
    (umounted (main { World.early CalRead.not_found with cal_write_block := -1 }
        ["rdmod".toList, "-e".toList]).events = [devshm, dev] ∧
      (main { World.early CalRead.not_found with cal_write_block := -1 }
        ["rdmod".toList, "-e".toList]).ret = .ok RDMOD_CAL_WRITE_E) ∧
    (umounted (main (World.early CalRead.not_found) ["rdmod".toList, "-e".toList]).events =
        [devshm, dev] ∧
      (main (World.early CalRead.not_found) ["rdmod".toList, "-e".toList]).ret =
        .ok RDMOD_GOOD) := by
  decide

/-- C10: when the scan of the mount table for "/dev/shm" returns 1, `main` makes no `mount`,
`mkdir`, `mknod` or `umount` call, whatever the arguments and whatever libcal answers;
with `argc >= 2` and the mount table opened, it goes on from line 171 with `neededshm`
and `neededdev` both false. -/
theorem no_bootstrap_when_mounted (w : World) (argv : List CStr) (mountsfile : FILE)
    (hscan : streamHasStr ⟨w.mounts_first, false⟩ devshm = .ok (1, mountsfile)) :
    (∀ e ∈ (main w argv).events, e.is_fs_call = false) ∧
      (2 ≤ argv.length → w.fopen_ok = true →
        main w argv = (main_cal w argv false false).after [Event.fopen mounts]) := by
  constructor
  · unfold main
    split
    · simp
    split
    · simp [Event.is_fs_call]
    split
    · simp [Run.after, Event.is_fs_call]
    · simp only [hscan, EOF]
      intro e he
      simp only [Run.after, List.singleton_append, List.mem_cons] at he
      rcases he with rfl | he
      · rfl
      · simp only [show ¬ ((1 : Int) = -1) by decide, show ¬ ((1 : Int) = 0) by decide,
          if_false] at he
        exact main_cal_no_fs_call w argv e he
  · intro hargc hopen
    unfold main
    have h0 : ¬ argv.length = 0 := by omega
    have h1 : ¬ argv.length = 1 := by omega
    simp [h0, h1, hopen, hscan, EOF]

set_option maxRecDepth 100000 in
/-- Witness of C10: a mount table that lists `/dev/shm`. -/
theorem no_bootstrap_when_mounted_witness :
    (∀ e ∈ (main (World.running CalRead.not_found) ["rdmod".toList, "-q".toList]).events,
      e.is_fs_call = false) ∧
    (2 ≤ ["rdmod".toList, "-q".toList].length → (World.running CalRead.not_found).fopen_ok = true →
      main (World.running CalRead.not_found) ["rdmod".toList, "-q".toList] =
        (main_cal (World.running CalRead.not_found) ["rdmod".toList, "-q".toList]
          false false).after [Event.fopen mounts]) :=
  no_bootstrap_when_mounted (World.running CalRead.not_found) ["rdmod".toList, "-q".toList]
    ⟨" tmpfs rw 0 0\n".toList.map some, false⟩ (by decide)

set_option maxRecDepth 100000 in
/-- C11 (defect of the code): the character that ends a partial match is consumed and never
tried as the start of a new match, so an occurrence that begins inside a partial match is
missed: the scan of "//dev/shm" for "/dev/shm" and the scan of "/dev/dev tmpfs" for
"/dev tmpfs" both return 0, without any failed read, although the pattern occurs in the
content. With the mount table "none //dev/shm tmpfs rw 0 0", `main` mounts `/dev` and
`/dev/shm` again. -/
theorem scan_misses_match_after_partial_match :
    (streamHasStr ⟨"//dev/shm".toList.map some, false⟩ devshm = .ok (0, ⟨[], false⟩) ∧
      devshm <:+: "//dev/shm".toList) ∧
    (streamHasStr ⟨"/dev/dev tmpfs".toList.map some, false⟩ devtmpfs = .ok (0, ⟨[], false⟩) ∧
      devtmpfs <:+: "/dev/dev tmpfs".toList) ∧
    mounted (main { World.running CalRead.not_found with
        mounts_first := "none //dev/shm tmpfs rw 0 0\n".toList.map some
        mounts_second := "none //dev/shm tmpfs rw 0 0\n".toList.map some }
      ["rdmod".toList, "-q".toList]).events = [dev, devshm] := by
  decide

set_option maxRecDepth 100000 in
/-- C12 (defect of the code): a failed read in the middle of a partial match is taken for
a mismatch (line 420 compares the value of `fgetc` with `str[u.i]` and tests neither
`feof` nor `ferror`); when the read after it meets the end of the file, `feof` holds and
the scan returns 0, not `EOF`. The stream "tmpfs /dev/sh" ended by a failed read gives 0
for "/dev/shm"; it gives `EOF` only when the next read fails too, and the stream "tmpfs "
ended by a failed read, where the failure comes in the do-while, gives `EOF`. With the
first stream as the mount table `main` does not return `RDMOD_DEVSHM_READ_E`: it goes on
to the second scan, which sees the error indicator and makes `main` return
`RDMOD_DEV_READ_E`. -/
theorem scan_loses_error_in_partial_match :
    streamHasStr ⟨"tmpfs /dev/sh".toList.map some ++ [none], false⟩ devshm =
      .ok (0, ⟨[], true⟩) ∧
    streamHasStr ⟨"tmpfs /dev/sh".toList.map some ++ [none, none], false⟩ devshm =
      .ok (EOF, ⟨[], true⟩) ∧
    streamHasStr ⟨"tmpfs ".toList.map some ++ [none], false⟩ devshm = .ok (EOF, ⟨[], true⟩) ∧
    (main { World.running CalRead.not_found with
        mounts_first := "tmpfs /dev/sh".toList.map some ++ [none] }
      ["rdmod".toList, "-q".toList]).ret = .ok RDMOD_DEV_READ_E ∧
    (0 : Int) ≠ EOF ∧ RDMOD_DEV_READ_E ≠ RDMOD_DEVSHM_READ_E := by
  decide

/-- C13: an iteration on `-w` followed by a token `s` makes `s` the live string, whatever
`s` is, prints that it was written, and leaves `index` two further, at the token after
`s`; on `-w` as the last token it changes nothing. So `-w -q` leaves "-q" and prints no
query, `-w -d` leaves "-d", and in `-w x -e` the option `-e` is executed. -/
theorem raw_write_takes_one_token :
    (∀ (argv : List CStr) (st : Loop), argv.getD st.index [] = "-w".toList →
      st.index + 1 < argv.length →
      iteration argv st =
        .ok ⟨st.index + 2, argv.getD (st.index + 1) [],
          st.out ++
            ["\"".toList ++ argv.getD (st.index + 1) [] ++ "\" was written.\n".toList]⟩) ∧
    (∀ (argv : List CStr) (st : Loop), argv.getD st.index [] = "-w".toList →
      ¬ st.index + 1 < argv.length →
      iteration argv st = .ok ⟨st.index + 2, st.rd_mode_string, st.out⟩) ∧
    command_loop ["rdmod".toList, "-w".toList, "-q".toList] 3 ⟨1, "master".toList, []⟩ =
      .ok ⟨3, "-q".toList, ["\"-q\" was written.\n".toList]⟩ ∧
    command_loop ["rdmod".toList, "-w".toList, "-d".toList] 3 ⟨1, "master".toList, []⟩ =
      .ok ⟨3, "-d".toList, ["\"-d\" was written.\n".toList]⟩ ∧
    command_loop ["rdmod".toList, "-w".toList, "x".toList, "-e".toList] 4
        ⟨1, "no-charging".toList, []⟩ =
      .ok ⟨4, "master".toList, ["\"x\" was written.\n".toList, "R&D Mode enabled.\n".toList]⟩ ∧
    command_loop ["rdmod".toList, "-w".toList] 2 ⟨1, "master".toList, []⟩ =
      .ok ⟨3, "master".toList, []⟩ := by
  refine ⟨?_, ?_, by decide, by decide, by decide, by decide⟩
  · intro argv st h hlt
    rw [iteration_w argv st h, if_pos hlt]
  · intro argv st h hlt
    rw [iteration_w argv st h, if_neg hlt]

set_option maxRecDepth 100000 in
/-- Witness of C13: the iteration on `-w` in `-w -q` from the live string "master". -/
theorem raw_write_takes_one_token_witness :
    iteration ["rdmod".toList, "-w".toList, "-q".toList] ⟨1, "master".toList, []⟩ =
      .ok ⟨3, "-q".toList, ["\"-q\" was written.\n".toList]⟩ :=
  raw_write_takes_one_token.1 ["rdmod".toList, "-w".toList, "-q".toList]
    ⟨1, "master".toList, []⟩ (by decide) (by decide)

/-- C14: a leading token `u` that is none of the nine options changes nothing and is not
fatal: the iteration on it only moves `index` one further, and the command loop on
`prog :: u :: rest` ends as it does on `prog :: rest` (the same live string, the same
output, the same fault if there is one), with `index` one greater. With at least one
token after `u`, the whole run of `main` is the same, the write-back included. -/
theorem unknown_leading_token_is_skipped :
    (∀ (argv : List CStr) (st : Loop), argv.getD st.index [] ∉ options →
      iteration argv st = .ok ⟨st.index + 1, st.rd_mode_string, st.out⟩) ∧
    (∀ (prog u : CStr) (rest : List CStr) (cur : CStr) (out : List CStr), u ∉ options →
      command_loop (prog :: u :: rest) (prog :: u :: rest).length ⟨1, cur, out⟩ =
        (command_loop (prog :: rest) (prog :: rest).length ⟨1, cur, out⟩).map
          fun st => { st with index := st.index + 1 }) ∧
    (∀ (w : World) (prog u r : CStr) (rest : List CStr), u ∉ options →
      main w (prog :: u :: r :: rest) = main w (prog :: r :: rest)) ∧
    "master".toList ∉ options ∧ (∀ f ∈ rd_mode_flags, f ∉ options) := by
  refine ⟨iteration_other, ?_, ?_, by decide, by decide⟩
  · intro prog u rest cur out hu
    exact command_loop_skip prog u rest hu cur out
  · intro w prog u r rest hu
    exact main_skip w prog u r rest hu

set_option maxRecDepth 100000 in
/-- Witness of C14: the bare flag name "no-charging" before `-e`. -/
theorem unknown_leading_token_is_skipped_witness :
    command_loop ["rdmod".toList, "no-charging".toList, "-e".toList] 3 ⟨1, [], []⟩ =
      .ok ⟨3, "master".toList, ["R&D Mode enabled.\n".toList]⟩ := by
  have h := unknown_leading_token_is_skipped.2.1 "rdmod".toList "no-charging".toList
    ["-e".toList] [] [] (by decide)
  rw [show ["rdmod".toList, "no-charging".toList, "-e".toList].length = 3 from rfl] at h
  rw [h]
  decide

/-- C15: the `-s` and `-c` loops pass over flag names only, so a token that is not one of
the eight flag names is never consumed; when the tokens between the option and such a
token `t` are consumed (a flag name first, then names among `rd_mode_flags[2..8]`), the
iteration ends with `index` at `t`, after exactly one line of output for each consumed
token, and the next iteration takes `t` as a leading token. The iteration on `-s`
always ends. The arguments `-s no-charging -d` leave an empty live string. -/
theorem flag_loop_stops_at_other_token :
    (∀ (argv : List CStr) (st st' : Loop),
      (argv.getD st.index [] = "-s".toList ∨ argv.getD st.index [] = "-c".toList) →
      iteration argv st = .ok st' →
      ∀ q, st.index < q → q < st'.index → q < argv.length →
        argv.getD q [] ∈ rd_mode_flags.tail) ∧
    (∀ (argv : List CStr) (st st' : Loop) (m : Nat),
      (argv.getD st.index [] = "-s".toList ∨ argv.getD st.index [] = "-c".toList) →
      st.index + m + 1 < argv.length →
      argv.getD (st.index + m + 1) [] ∉ rd_mode_flags.tail →
      (1 ≤ m → argv.getD (st.index + 1) [] ∈ rd_mode_flags.tail) →
      (∀ r, st.index + 1 < r → r < st.index + m + 1 →
        argv.getD r [] ∈ rd_mode_flags.drop 2) →
      iteration argv st = .ok st' →
      st'.index = st.index + m + 1 ∧ st'.out.length = st.out.length + m) ∧
    (∀ (argv : List CStr) (st : Loop), st.index < argv.length →
      argv.getD st.index [] = "-s".toList → ∃ st', iteration argv st = .ok st') ∧
    iteration ["rdmod".toList, "-s".toList, "no-charging".toList, "-d".toList]
        ⟨1, "master".toList, []⟩ =
      .ok ⟨3, "master,no-charging".toList, ["no-charging is now set.\n".toList]⟩ ∧
    command_loop ["rdmod".toList, "-s".toList, "no-charging".toList, "-d".toList] 4
        ⟨1, "master".toList, []⟩ =
      .ok ⟨4, [], ["no-charging is now set.\n".toList, "R&D Mode disabled.\n".toList]⟩ := by
  refine ⟨?_, ?_, iteration_s_ok, by decide, by decide⟩
  · intro argv st st' hopt h
    exact iteration_consumes_flags argv st st' hopt h
  · intro argv st st' m hopt hp ht hfirst hnext h
    exact iteration_stops_at argv st st' m hopt hp ht hfirst hnext h

set_option maxRecDepth 100000 in
/-- Witness of C15: in `-c sti-console no-charging -q` the two flags are consumed and the
iteration ends at `-q`. -/
theorem flag_loop_stops_at_other_token_witness :
    (⟨4, "master".toList,
        ["sti-console is now cleared.\n".toList, "no-charging is now cleared.\n".toList]⟩ :
      Loop).index = 1 + 2 + 1 ∧
    (⟨4, "master".toList,
        ["sti-console is now cleared.\n".toList, "no-charging is now cleared.\n".toList]⟩ :
      Loop).out.length = ([] : List CStr).length + 2 :=
  flag_loop_stops_at_other_token.2.1
    ["rdmod".toList, "-c".toList, "sti-console".toList, "no-charging".toList, "-q".toList]
    ⟨1, "master,no-charging,sti-console".toList, []⟩
    ⟨4, "master".toList,
      ["sti-console is now cleared.\n".toList, "no-charging is now cleared.\n".toList]⟩ 2
    (by decide) (by decide) (by decide) (by decide)
    (by
      intro r h1 h2
      simp only at h1 h2
      have : r = 3 := by omega
      subst this
      decide)
    (by decide)

/-- C16: for every live string and every settable flag `f`, the command loop on
`-s f -s f` ends with the live string it ends with on `-s f`; setting a flag a second
time finds it and changes only the output. -/
theorem set_twice_is_set_once :
    (∀ (prog cur f : CStr), f ∈ rd_mode_flags.tail →
      ∃ st1 st2,
        command_loop [prog, "-s".toList, f] [prog, "-s".toList, f].length ⟨1, cur, []⟩ =
          .ok st1 ∧
        command_loop [prog, "-s".toList, f, "-s".toList, f]
          [prog, "-s".toList, f, "-s".toList, f].length ⟨1, cur, []⟩ = .ok st2 ∧
        st2.rd_mode_string = st1.rd_mode_string) ∧
    (∀ (f : CStr) (st st1 : Loop), set_flag f st = .ok st1 →
      set_flag f st1 =
        .ok { st1 with out := st1.out ++ [f ++ " was already set.\n".toList] }) := by
  refine ⟨?_, fun f st st1 h => set_flag_of_found f st1 (set_flag_found f st st1 h)⟩
  intro prog cur f hf
  have hopt : ("-s".toList : CStr) ∉ rd_mode_flags.drop 2 := by decide
  obtain ⟨s1, hs1⟩ : ∃ s1, set_flag f ⟨2, cur, []⟩ = .ok s1 := by
    unfold set_flag; split <;> exact ⟨_, rfl⟩
  have hidx1 : s1.index = 2 := body_set_flag.index_eq hs1
  have hfound := set_flag_found f _ s1 hs1
  refine ⟨{ s1 with index := 4 },
    { s1 with index := 6, out := s1.out ++ [f ++ " was already set.\n".toList] }, ?_, ?_, rfl⟩
  · rw [command_loop_s_single prog f hf, hs1]
    rfl
  · have hlen : [prog, "-s".toList, f, "-s".toList, f].length = 3 + 1 + 1 := rfl
    have it1 := iteration_one body_set_flag [prog, "-s".toList, f, "-s".toList, f]
      ⟨1, cur, []⟩ (iteration_s _ _ rfl) (by simp) (by simpa using hf)
      (fun _ => by simpa using hopt)
    have it2 := iteration_one body_set_flag [prog, "-s".toList, f, "-s".toList, f]
      ⟨3, s1.rd_mode_string, s1.out⟩ (iteration_s _ _ rfl) (by simp) (by simpa using hf)
      (fun h => by simp at h)
    simp only [List.length_cons, List.length_nil, List.getD_cons_succ, List.getD_cons_zero,
      show 1 + 2 < 0 + 1 + 1 + 1 + 1 + 1 by omega,
      show ¬ 3 + 2 < 0 + 1 + 1 + 1 + 1 + 1 by omega, if_true, if_false] at it1 it2
    rw [show (⟨1 + 1, cur, []⟩ : Loop) = ⟨2, cur, []⟩ from rfl, hs1] at it1
    rw [set_flag_of_found f ⟨4, s1.rd_mode_string, s1.out⟩ hfound] at it2
    rw [hlen, command_loop_succ, if_pos (by simp), it1]
    simp only [Except.map]
    rw [command_loop_succ, if_pos (by simp), it2]
    simp only [Except.map]
    rw [command_loop_succ, if_neg (by simp)]

set_option maxRecDepth 100000 in
/-- Witness of C16: "no-charging" set twice on "master". -/
theorem set_twice_is_set_once_witness :
    ∃ st1 st2,
      command_loop ["rdmod".toList, "-s".toList, "no-charging".toList]
        ["rdmod".toList, "-s".toList, "no-charging".toList].length
        ⟨1, "master".toList, []⟩ = .ok st1 ∧
      command_loop
        ["rdmod".toList, "-s".toList, "no-charging".toList, "-s".toList, "no-charging".toList]
        ["rdmod".toList, "-s".toList, "no-charging".toList, "-s".toList,
          "no-charging".toList].length
        ⟨1, "master".toList, []⟩ = .ok st2 ∧
      st2.rd_mode_string = st1.rd_mode_string :=
  set_twice_is_set_once.1 "rdmod".toList "master".toList "no-charging".toList (by decide)

set_option maxRecDepth 100000 in
/-- C17 (defect of the code): on the live string "master,no-ext-wd,no-lifeguard-reset",
whose tokens are catalog names among which "no-ext-wd" occurs once and not first, the
command loop on `-s no-ext-wd -c no-ext-wd -s no-ext-wd` stops in the clear, at the
`strcpy` between overlapping objects (more characters follow the flag than it has), and
the run of `main` is undefined. On every live string whose tokens are empty or catalog
names, with the settable flag `a` a token at most once and not the first one, the loop
on `-s a -c a -s a` either stops at that overlap, `a` being a token of the original
string, or ends with the tokens of the original string without `a`, in their order,
followed by `a` (`a` is then a token exactly once and occurs once as a substring). -/
theorem set_clear_set_overlaps :
    ((∀ t ∈ tokens "master,no-ext-wd,no-lifeguard-reset".toList, t = [] ∨ t ∈ rd_mode_flags) ∧
      (tokens "master,no-ext-wd,no-lifeguard-reset".toList).count "no-ext-wd".toList = 1 ∧
      (tokens "master,no-ext-wd,no-lifeguard-reset".toList).head? ≠
        some "no-ext-wd".toList) ∧
    command_loop
        ["rdmod".toList, "-s".toList, "no-ext-wd".toList, "-c".toList, "no-ext-wd".toList,
          "-s".toList, "no-ext-wd".toList] 7
        ⟨1, "master,no-ext-wd,no-lifeguard-reset".toList, []⟩ = .error Fault.overlap ∧
    (main (World.running (CalRead.ok "master,no-ext-wd,no-lifeguard-reset".toList))
        ["rdmod".toList, "-s".toList, "no-ext-wd".toList, "-c".toList, "no-ext-wd".toList,
          "-s".toList, "no-ext-wd".toList]).ret = .error Fault.overlap ∧
    (∀ (prog cur a : CStr), (∀ t ∈ tokens cur, t = [] ∨ t ∈ rd_mode_flags) →
      a ∈ rd_mode_flags.tail → (tokens cur).count a ≤ 1 → (tokens cur).head? ≠ some a →
      (a ∈ tokens cur ∧
        command_loop [prog, "-s".toList, a, "-c".toList, a, "-s".toList, a] 7 ⟨1, cur, []⟩ =
          .error Fault.overlap) ∨
      ∃ st, command_loop [prog, "-s".toList, a, "-c".toList, a, "-s".toList, a] 7
          ⟨1, cur, []⟩ = .ok st ∧
        tokens st.rd_mode_string = (tokens cur).erase a ++ [a] ∧
        (tokens st.rd_mode_string).count a = 1 ∧
        (tokens st.rd_mode_string).filter (fun t => decide (t ≠ a)) =
          (tokens cur).filter (fun t => decide (t ≠ a)) ∧
        ∃ k, strstr st.rd_mode_string a = some k ∧
          strstr (st.rd_mode_string.drop (k + 1)) a = none) := by
  refine ⟨by decide, by decide, by decide, ?_⟩
  intro prog cur a hcur ha hcount hhead
  have hne := tokens_ne_nil cur
  obtain ⟨hout, hrun⟩ := command_loop_set_clear_set prog a hcur hne ha hcount hhead
  rw [join_tokens] at hout hrun
  have hcat2 : catalog_only ((tokens cur).erase a) := catalog_only_erase hcur a
  have hmem2 : a ∉ (tokens cur).erase a := by
    rw [← List.count_eq_zero, List.count_erase_self]
    omega
  have hne2 : (tokens cur).erase a ≠ [] := by
    by_cases hmem : a ∈ tokens cur
    · exact erase_ne_nil hmem hhead
    · rw [List.erase_of_not_mem hmem]; exact hne
  have htok : tokens (join ((tokens cur).erase a ++ [a])) = (tokens cur).erase a ++ [a] :=
    tokens_join (catalog_only_snoc hcat2 ha) (by simp)
  obtain ⟨hfirst, hafter⟩ := strstr_join_snoc hcat2 hne2 (List.mem_of_mem_tail ha) hmem2
  have hres : ∀ out, command_loop [prog, "-s".toList, a, "-c".toList, a, "-s".toList, a] 7
        ⟨1, cur, []⟩ = .ok ⟨8, join ((tokens cur).erase a ++ [a]), out⟩ →
      ∃ st, command_loop [prog, "-s".toList, a, "-c".toList, a, "-s".toList, a] 7
          ⟨1, cur, []⟩ = .ok st ∧
        tokens st.rd_mode_string = (tokens cur).erase a ++ [a] ∧
        (tokens st.rd_mode_string).count a = 1 ∧
        (tokens st.rd_mode_string).filter (fun t => decide (t ≠ a)) =
          (tokens cur).filter (fun t => decide (t ≠ a)) ∧
        ∃ k, strstr st.rd_mode_string a = some k ∧
          strstr (st.rd_mode_string.drop (k + 1)) a = none := by
    intro out hok
    refine ⟨_, hok, htok, ?_, ?_, _, hfirst, hafter⟩
    · simp only [htok, List.count_append, List.count_eq_zero.2 hmem2]
      simp
    · simp only [htok, List.filter_append, filter_ne_erase]
      simp
  by_cases hmem : a ∈ tokens cur
  · rcases hrun with herr | ⟨out, hok⟩
    · exact Or.inl ⟨hmem, herr⟩
    · exact Or.inr (hres out hok)
  · obtain ⟨out, hok⟩ := hout hmem
    exact Or.inr (hres out hok)

set_option maxRecDepth 100000 in
/-- C18 (defect of the code): a live string is well formed when it is "" or "master"
followed by groups of a comma and a settable flag, the flags pairwise distinct. The string
of all nine names is well formed, and the iteration on `-c no-ext-wd` from it stops at the
`strcpy` between overlapping objects (more characters follow the flag than it has), so
the string it leaves is undefined; the run of `main` on
`-e -s no-ext-wd no-lifeguard-reset -c no-ext-wd`, from an empty store, stops there too.
What holds of the invariant: "" and "master" are well formed; every iteration on a token
other than `-w` and `-c` ends and keeps a well-formed string well formed; an iteration
on `-c`, and the command loop on arguments without `-w`, either stop at that overlap or
end on a well-formed string; and in a well-formed string `strstr` never finds a settable
flag at offset 0, so the destination `substring - 1` does not leave the buffer. -/
theorem clear_breaks_well_formed :
    well_formed [] ∧ well_formed "master".toList ∧
    well_formed ("master,no-omap-wd,no-ext-wd,no-lifeguard-reset,serial-console," ++
      "no-usb-timeout,sti-console,no-charging,force-power-key").toList ∧
    iteration ["rdmod".toList, "-c".toList, "no-ext-wd".toList]
        ⟨1, ("master,no-omap-wd,no-ext-wd,no-lifeguard-reset,serial-console," ++
          "no-usb-timeout,sti-console,no-charging,force-power-key").toList, []⟩ =
      .error Fault.overlap ∧
    (main (World.running CalRead.not_found)
        ["rdmod".toList, "-e".toList, "-s".toList, "no-ext-wd".toList,
          "no-lifeguard-reset".toList, "-c".toList, "no-ext-wd".toList]).ret =
      .error Fault.overlap ∧
    (∀ (argv : List CStr) (st : Loop), st.index < argv.length →
      argv.getD st.index [] ≠ "-w".toList → argv.getD st.index [] ≠ "-c".toList →
      well_formed st.rd_mode_string →
      ∃ st', iteration argv st = .ok st' ∧ well_formed st'.rd_mode_string) ∧
    (∀ (argv : List CStr) (st : Loop), st.index < argv.length →
      argv.getD st.index [] = "-c".toList → well_formed st.rd_mode_string →
      iteration argv st = .error Fault.overlap ∨
        ∃ st', iteration argv st = .ok st' ∧ well_formed st'.rd_mode_string) ∧
    (∀ (argv : List CStr) (cur : CStr) (out : List CStr), argv ≠ [] →
      "-w".toList ∉ argv.tail → well_formed cur →
      command_loop argv argv.length ⟨1, cur, out⟩ = .error Fault.overlap ∨
        ∃ st, command_loop argv argv.length ⟨1, cur, out⟩ = .ok st ∧
          well_formed st.rd_mode_string) ∧
    (∀ (cur f : CStr) (k : Nat), well_formed cur → f ∈ rd_mode_flags.tail →
      strstr cur f = some k → 0 < k) := by
  refine ⟨⟨[], [], Or.inl rfl, by simp, by simp, by simp⟩,
    ⟨"master".toList, [], Or.inr rfl, by simp, by simp, by simp⟩,
    ⟨"master".toList, rd_mode_flags.tail, Or.inr rfl, fun f hf => hf, by decide, by decide⟩,
    by decide, by decide, ?_, ?_, ?_, fun cur f k hs hf hk => well_formed_offset hs hf hk⟩
  · intro argv st hidx hw hc hs
    rcases iteration_well_formed argv st hidx hw hs with ⟨h, _⟩ | h
    · exact absurd h hc
    · exact h
  · intro argv st hidx hc hs
    rcases iteration_well_formed argv st hidx (by rw [hc]; decide) hs with ⟨_, h⟩ | h
    · exact Or.inl h
    · exact Or.inr h
  · intro argv cur out hne hw hs
    have hlen : 0 < argv.length := List.length_pos.2 hne
    rcases command_loop_ok_rule argv
      (fun st => 1 ≤ st.index ∧ well_formed st.rd_mode_string) Fault.overlap
      (fun st hI hidx => by
        rcases iteration_well_formed argv st hidx
          (fun h => hw (h ▸ getD_mem_tail argv st.index hI.1 hidx)) hI.2 with
          ⟨_, h⟩ | ⟨st', hit, hwf⟩
        · exact Or.inl h
        · have := iteration_progress argv st st' hit
          exact Or.inr ⟨st', hit, by omega, hwf⟩)
      argv.length ⟨1, cur, out⟩ (by simp only; omega) ⟨Nat.le_refl 1, hs⟩ with
      h | ⟨st, hrun, _, hwf⟩
    · exact Or.inl h
    · exact Or.inr ⟨st, hrun, hwf⟩

/-- C19: when `streamHasStr` returns 1 for a non-empty `str`, the reads it made end with
the characters of `str` (what it leaves unread is the rest of the stream), so `str` is a
contiguous part of the stream; and no read had failed. -/
theorem scan_match_is_real (str : CStr) (stream file : FILE) (hne : str ≠ [])
    (h : streamHasStr stream str = .ok (1, file)) :
    (∃ pre, stream.pending = pre ++ str.map some ++ file.pending) ∧
      str.map some <:+: stream.pending ∧ file.error = false := by
  obtain ⟨he, pre, hpre⟩ := (scan_one str hne stream.pending).1 stream.error file h
  exact ⟨⟨pre, hpre⟩, ⟨pre, file.pending, hpre.symm⟩, he⟩

set_option maxRecDepth 100000 in
/-- Witness of C19: the scan of a mount table that lists `/dev/shm`. -/
theorem scan_match_is_real_witness :
    (∃ pre, table_with_devshm = pre ++ devshm.map some ++ " tmpfs rw 0 0\n".toList.map some) ∧
      devshm.map some <:+: table_with_devshm ∧ false = false :=
  scan_match_is_real devshm ⟨table_with_devshm, false⟩
    ⟨" tmpfs rw 0 0\n".toList.map some, false⟩ (by decide) (by decide)

/-- C20: every iteration of the command loop that ends leaves `index` greater than it found
it; in the `-s` and `-c` branches `index`, after the `--index` of an unmatched token, is
not before the option; no iteration and no run of the loop exhausts the fuel: from
`index = 1` the loop ends, or stops at the underflow or at the overlap of a clear, within
`argc - 1` iterations (the fuel `argc` is one unit for each and one for the last test of
the condition). -/
theorem command_loop_terminates :
    (∀ (argv : List CStr) (st st' : Loop), iteration argv st = .ok st' →
      st.index < st'.index) ∧
    (∀ (argv : List CStr) (st : Loop) (r : Nat × Loop),
      (flag_loop set_flag argv (9 * argv.length) 1 { st with index := st.index + 1 } = .ok r ∨
        flag_loop clear_flag argv (9 * argv.length) 1 { st with index := st.index + 1 } =
          .ok r) →
      st.index + 1 ≤ r.2.index ∧ st.index ≤ (after_flag_loop r).index) ∧
    (∀ (argv : List CStr) (st : Loop), st.index < argv.length →
      iteration argv st ≠ .error Fault.fuel) ∧
    (∀ (argv : List CStr) (cur : CStr) (out : List CStr), argv ≠ [] →
      (∃ st', command_loop argv ((argv.length - 1) + 1) ⟨1, cur, out⟩ = .ok st' ∧
        argv.length ≤ st'.index) ∨
      command_loop argv ((argv.length - 1) + 1) ⟨1, cur, out⟩ = .error Fault.underflow ∨
      command_loop argv ((argv.length - 1) + 1) ⟨1, cur, out⟩ = .error Fault.overlap) := by
  refine ⟨iteration_progress, ?_, iteration_fuel, ?_⟩
  · intro argv st r h
    obtain ⟨i', st'⟩ := r
    have hle : st.index + 1 ≤ st'.index := by
      rcases h with h | h
      · exact flag_loop_index_le body_set_flag argv _ _ _ _ _ h
      · exact flag_loop_index_le body_clear_flag argv _ _ _ _ _ h
    refine ⟨hle, ?_⟩
    unfold after_flag_loop
    split <;> simp only <;> omega
  · intro argv cur out hne
    have hlen : 0 < argv.length := List.length_pos.2 hne
    rcases command_loop_total argv ((argv.length - 1) + 1) ⟨1, cur, out⟩
      (by simp only; omega) with ⟨st', h, hidx⟩ | h
    · exact Or.inl ⟨st', h, by omega⟩
    · exact Or.inr h

set_option maxRecDepth 100000 in
/-- Witness of C20: the iteration on `-s` in `-s no-charging -d` ends at the `-d`. -/
theorem command_loop_terminates_witness :
    (⟨1, "master".toList, []⟩ : Loop).index <
      (⟨3, "master,no-charging".toList, ["no-charging is now set.\n".toList]⟩ : Loop).index :=
  command_loop_terminates.1 ["rdmod".toList, "-s".toList, "no-charging".toList, "-d".toList]
    ⟨1, "master".toList, []⟩
    ⟨3, "master,no-charging".toList, ["no-charging is now set.\n".toList]⟩ (by decide)

end Rdmod
